import Mathlib

/-! # mysh: command dispatch and history replay

A shallow embedding of `queue.c` and of the dispatch core of `mysh.c`.

Conventions of the embedding.

* A C string is the list of its characters before the terminating NUL.
* A pointer that may be `NULL` is an `Option`.
* A run that dereferences `NULL`, fails an `assert`, writes outside an
  array, or reads through a pointer into an array whose lifetime has ended,
  ends in `Fault.undefined`; a run that uses up the recursion budget of the
  model ends in `Fault.fuel`.
* An element of `argv` is a string inside the line, or the pointer that the
  quoted branch of `set_arguments` leaves dangling (`Arg`); the array `argv`
  has the `ARGV_SLOTS` elements that its callers allocate.
* Only the parent process is modelled; what the child of `fork` does is
  supplied by a `World`.
-/

namespace Mysh

/-- The two ways a modelled run can fail to produce a value. -/
inductive Fault where
  | undefined
  | fuel
  deriving DecidableEq, Repr

deriving instance DecidableEq for Except

/-- A C string. -/
abbrev Str := List Char

/-! ## libc -/

/-- The function `isspace` of the C locale. -/
def isspace (c : Char) : Bool :=
  c = ' ' || c = '\t' || c = '\n' || c = '\x0b' || c = '\x0c' || c = '\r'

/-- The function `strtok`, on the text at the saved pointer: the token
(`none` for `NULL`) and the text at the new saved pointer. -/
def strtok (delim : List Char) (s : Str) : Option Str × Str :=
  let s1 := s.dropWhile (fun c => delim.contains c)
  if s1 = [] then (none, [])
  else (some (s1.takeWhile (fun c => !delim.contains c)),
        (s1.dropWhile (fun c => !delim.contains c)).drop 1)

/-- The C string at the start of a buffer after `strtok(buffer, delim)`:
`strtok` overwrites the delimiter that ends the first token with NUL, so the
buffer is cut there. Later calls only write further along. -/
def strtok_buf (delim : List Char) (s : Str) : Str :=
  s.takeWhile (fun c => delim.contains c) ++
    (s.dropWhile (fun c => delim.contains c)).takeWhile (fun c => !delim.contains c)

/-- LONG_MAX of a 64-bit `long`. -/
def LONG_MAX : Int := 2 ^ 63 - 1

/-- LONG_MIN of a 64-bit `long`. -/
def LONG_MIN : Int := -(2 ^ 63)

/-- The digit scan of `strtol` in base 10: the value of the longest prefix of
decimal digits, starting from `acc`. -/
def strtol_digits : Nat → Str → Nat
  | acc, [] => acc
  | acc, c :: cs =>
    if c.isDigit then strtol_digits (acc * 10 + (c.toNat - 48)) cs else acc

/-- The call `strtol(s, NULL, 10)`: leading white space, an optional sign, decimal
digits; the value saturates at the bounds of `long`. -/
def strtol (s : Str) : Int :=
  let s1 := s.dropWhile isspace
  match s1 with
  | '-' :: cs => max (-(strtol_digits 0 cs : Int)) LONG_MIN
  | '+' :: cs => min (strtol_digits 0 cs : Int) LONG_MAX
  | _ => min (strtol_digits 0 s1 : Int) LONG_MAX

/-- Conversion of an integer to `int` (32 bits, two's complement). -/
def toInt32 (x : Int) : Int :=
  let r := x % 2 ^ 32
  if r < 2 ^ 31 then r else r - 2 ^ 32

/-! ## The tokenizer of mysh.c -/

/-- The constant `ARG_BUFFER`. -/
def ARG_BUFFER : Nat := 256

/-- The constant `MAX_ARGS`. -/
def MAX_ARGS : Nat := 10

/-- The number of pointers in the array that `run` and `bang` hand to
`set_arguments`: `calloc(MAX_ARGS, sizeof(char) * ARG_BUFFER)` gives
`MAX_ARGS * ARG_BUFFER` bytes, and a pointer has 8 bytes. -/
def ARGV_SLOTS : Nat := MAX_ARGS * ARG_BUFFER / 8

/-- An element of `argv` that has been set: a pointer to a string inside the
line, or the pointer `temp + 1` into the array `temp` of the quoted branch.
That array is local to the block of the `if`, so once the block is left the
pointer dangles and nothing can be read through it. -/
inductive Arg where
  | live (s : Str)
  | dangling
  deriving DecidableEq, Repr

/-- The strings that `printf` reads through the elements of `argv`; to read
through a dangling pointer is undefined. -/
def read_all : List Arg → Except Fault (List Str)
  | [] => .ok []
  | Arg.live s :: args =>
    match read_all args with
    | .ok ss => .ok (s :: ss)
    | .error e => .error e
  | Arg.dangling :: _ => .error .undefined

/-- The function `is_empty`: the string has only white space. -/
def is_empty (s : Str) : Bool := s.all isspace

/-- The `while` loop of `set_arguments`. `arg` is the current token, `rest` the
text at the saved pointer of `strtok`, `argv` the elements stored so far. The
store `argv[argc++]` is outside the array once `ARGV_SLOTS` elements are set.
For a quoted token the element is `temp + 1`, which dangles as soon as the
block ends. -/
def set_arguments_loop : Nat → Option Str → Str → List Arg → Except Fault (List Arg)
  | 0, _, _, _ => .error .fuel
  | fuel + 1, arg, rest, argv =>
    match arg with
    | none => .ok argv
    | some a =>
      if a.head? = none || is_empty a then .ok argv
      else if a.head? = some '\'' || a.head? = some '"' then
        match strtok ['"', '\''] rest with
        | (none, _) => .error .undefined
        | (some _, rest1) =>
          if ARGV_SLOTS ≤ argv.length then .error .undefined
          else
            let next := strtok [' '] rest1
            set_arguments_loop fuel next.1 next.2 (argv ++ [Arg.dangling])
      else
        if ARGV_SLOTS ≤ argv.length then .error .undefined
        else
          let next := strtok [' '] rest
          set_arguments_loop fuel next.1 next.2 (argv ++ [Arg.live a])

/-- The function `set_arguments`: the count `argc` and the elements of `argv`
that are set. -/
def set_arguments (line : Str) : Except Fault (Nat × List Arg) :=
  let first := strtok [' '] line
  match set_arguments_loop (line.length + 1) first.1 first.2 [] with
  | .ok argv => .ok (argv.length, argv)
  | .error e => .error e

/-! ## queue.c -/

/-- The struct `Queue_S`: `contents` is the array of `capacity` slots given by
`calloc` (`none` is `NULL`). The field `oldest` is never read or written. -/
structure Queue (α : Type) where
  contents : List (Option α)
  size : Nat
  capacity : Nat
  deriving DecidableEq, Repr

/-- The function `create_queue`. -/
def create_queue {α : Type} (capacity : Nat) : Queue α :=
  { contents := List.replicate capacity none, size := 0, capacity := capacity }

/-- The loop of `dequeue` that shifts the array down: iterations `i`, `i + 1`,
... while `i < bound`, each `contents[i] = contents[i + 1]`. -/
def shift_down {α : Type} : Nat → Nat → List (Option α) → List (Option α)
  | 0, _, contents => contents
  | n + 1, i, contents => shift_down n (i + 1) (contents.set i (contents.getD (i + 1) none))

/-- The function `dequeue`: the item at the front and the queue without it.
The assertion `size > 0` fails on an empty queue; a `size` beyond the array
makes the loop read and write outside it. -/
def dequeue {α : Type} (queue : Queue α) : Except Fault (Option α × Queue α) :=
  if queue.size = 0 then .error .undefined
  else if queue.contents.length < queue.size then .error .undefined
  else
    let item := queue.contents.getD 0 none
    let size := queue.size
    let contents := shift_down (size - 1) 0 queue.contents
    .ok (item, { contents := contents.set (size - 1) none,
                 size := size - 1, capacity := queue.capacity })

/-- The function `enqueue`: a full queue gives up its oldest item first. The
write `contents[size] = item` is undefined outside the array. -/
def enqueue {α : Type} (queue : Queue α) (item : α) : Except Fault (Queue α) :=
  let step (q : Queue α) : Except Fault (Queue α) :=
    if q.size < q.contents.length then
      .ok { contents := q.contents.set q.size (some item),
            size := q.size + 1, capacity := q.capacity }
    else .error .undefined
  if queue.size = queue.capacity then
    match dequeue queue with
    | .ok (_, q) => step q
    | .error e => .error e
  else step queue

/-- The items of the queue, oldest first: the slots at positions below
`size`. -/
def Queue.items {α : Type} (queue : Queue α) : List (Option α) :=
  queue.contents.take queue.size

/-- A queue as `create_queue` and `enqueue` leave it: `capacity` slots, the
first `size` of them filled, the others `NULL`. -/
def Queue.wf {α : Type} (queue : Queue α) (items : List α) : Prop :=
  queue.size = items.length ∧ items.length ≤ queue.capacity ∧
  queue.contents = items.map some ++ List.replicate (queue.capacity - items.length) none

/-- The items after an `enqueue` into a queue that holds `items`. -/
def pushed {α : Type} (capacity : Nat) (items : List α) (item : α) : List α :=
  (if items.length = capacity then items.tail else items) ++ [item]


/-! ## The session of mysh.c -/

/-- What `wait` reports to the parent about the child of `fork`: the call
fails, or the child exited with a code, or it ended without exiting. -/
inductive WaitResult where
  | failed
  | exited (code : Nat)
  | abnormal
  deriving DecidableEq, Repr

/-- The host environment: the outcome of the child that runs `file` with
`argv`. -/
abbrev World := Str → List Arg → WaitResult

/-- What the parent process writes and starts, in order. -/
inductive Out where
  | prompt (sequence : Nat)
  | newline
  | tokens (argv : List Str)
  | help
  | history_line (number : Int) (line : Str)
  | usage_verbose
  | fork (file : Str) (argv : List Arg)
  | fatal
  | status2
  deriving DecidableEq, Repr

/-- The file-scope variables `hist`, `vflag` and `sequence`, and the output
so far. -/
structure Session where
  hist : Queue Str
  vflag : Nat
  sequence : Nat
  out : List Out
  deriving DecidableEq, Repr

/-- The constant `path`. -/
def path : Str := "/bin/".toList

/-- The constant `help_command`. -/
def help_command : Str := "help".toList

/-- The constant `history_command`. -/
def history_command : Str := "history".toList

/-- The constant `quit_command`. -/
def quit_command : Str := "quit".toList

/-- The constant `verbose_command`. -/
def verbose_command : Str := "verbose".toList

/-- Conversion of an integer to `long` (64 bits, two's complement). -/
def toInt64 (x : Int) : Int :=
  let r := x % 2 ^ 64
  if r < 2 ^ 63 then r else r - 2 ^ 64

/-- The test `argc <= bound && strcmp(argv[0], name) != 0` at the head of a
built-in; `strcmp` on an `argv[0]` that is `NULL` or dangles is undefined. -/
def usage_guard (bound argc : Nat) (argv : List Arg) (name : Str) : Except Fault Bool :=
  if argc ≤ bound then
    match argv.head? with
    | some (Arg.live a) => .ok (a != name)
    | _ => .error .undefined
  else .ok false

/-- The function `help`. -/
def help (argc : Nat) (argv : List Arg) (st : Session) : Except Fault (Int × Session) :=
  match usage_guard 0 argc argv help_command with
  | .error e => .error e
  | .ok true => .ok (-1, st)
  | .ok false => .ok (1, { st with out := st.out ++ [Out.help] })

/-- The `for` loop of `history` from position `i` on: one line per item, with
the number `sequence - size + i`, computed in `size_t` and printed as `long`. -/
def history_loop (sequence size : Nat) : List (Option Str) → Nat → Except Fault (List Out)
  | [], _ => .ok []
  | none :: _, _ => .error .undefined
  | some line :: items, i =>
    match history_loop sequence size items (i + 1) with
    | .ok outs =>
      .ok (Out.history_line (toInt64 ((sequence : Int) - size + i)) line :: outs)
    | .error e => .error e

/-- The function `history`. -/
def history (argc : Nat) (argv : List Arg) (st : Session) : Except Fault (Int × Session) :=
  match usage_guard 0 argc argv history_command with
  | .error e => .error e
  | .ok true => .ok (-1, st)
  | .ok false =>
    if st.hist.contents.length < st.hist.size then .error .undefined
    else
      match history_loop st.sequence st.hist.size st.hist.items 0 with
      | .ok outs => .ok (1, { st with out := st.out ++ outs })
      | .error e => .error e

/-- The function `quit`. -/
def quit (argc : Nat) (argv : List Arg) (st : Session) : Except Fault (Int × Session) :=
  match usage_guard 0 argc argv quit_command with
  | .error e => .error e
  | .ok true => .ok (-1, st)
  | .ok false => .ok (0, st)

/-- The function `verbose`. A missing `argv[1]` is `NULL`, and `strcmp` on it,
or on one that dangles, is undefined. -/
def verbose (argc : Nat) (argv : List Arg) (st : Session) : Except Fault (Int × Session) :=
  match usage_guard 1 argc argv verbose_command with
  | .error e => .error e
  | .ok true => .ok (-1, { st with out := st.out ++ [Out.usage_verbose] })
  | .ok false =>
    match argv.get? 1 with
    | some (Arg.live a) =>
      if a = "on".toList then .ok (1, { st with vflag := 1 })
      else if a = "off".toList then .ok (1, { st with vflag := 0 })
      else .ok (1, { st with out := st.out ++ [Out.usage_verbose] })
    | _ => .error .undefined

/-- The function `is_internal`. -/
def is_internal (command : Str) : Bool :=
  command = help_command || command = history_command || command = quit_command ||
    command = verbose_command || command.head? = some '!'

/-- The function `process_external`, in the parent process. -/
def process_external (w : World) (argc : Nat) (argv : List Arg) (st : Session) :
    Except Fault (Int × Session) :=
  if argc = 0 then .ok (-1, st)
  else
    match argv.head? with
    | some (Arg.live command) =>
      let file := path ++ command
      let st1 := { st with out := st.out ++ [Out.fork file argv] }
      match w file argv with
      | .failed => .ok (0, { st1 with out := st1.out ++ [Out.fatal] })
      | .exited 0 => .ok (1, st1)
      | _ => .ok (1, { st1 with out := st1.out ++ [Out.status2] })
    | _ => .error .undefined

/-- The value of `hist_idx` in `bang`: `comm_idx - sequence + size + 1` is
computed in `unsigned int` and converted to `int`. -/
def bang_index (comm_idx : Int) (sequence : Nat) (size : Int) : Int :=
  toInt32 ((comm_idx - sequence + size + 1) % 2 ^ 32)

/-- The session with a new ledger. -/
def Session.with_hist (st : Session) (hist : Queue Str) : Session :=
  { st with hist := hist }

/-- The function `bang`; `exec` is `execute_command`. The entry that is
replayed is handed to `set_arguments` itself, not a copy, so `strtok` cuts it
in the ledger. In a replay inside a replay `argv[0]` lies in a ledger entry;
`enqueue` frees the entry that it evicts, and a replay nested one level deeper
can evict this one before `bang` copies `argv[0]`. The ledger here keeps texts,
not addresses, so that read is given the text the entry had. -/
def bang (exec : Nat → List Arg → Session → Except Fault (Int × Session))
    (argc : Nat) (argv : List Arg) (st : Session) : Except Fault (Int × Session) :=
  if argc = 0 then .ok (-1, st)
  else
    match argv.head? with
    | some (Arg.live arg0) =>
      let line := arg0.drop 1
      let comm_idx := toInt32 (strtol line)
      let size := toInt32 st.hist.size
      let hist_idx := bang_index comm_idx st.sequence size
      let record (r : Int × Session) : Except Fault (Int × Session) :=
        match enqueue r.2.hist arg0 with
        | .ok hist => .ok (r.1, r.2.with_hist hist)
        | .error e => .error e
      if 0 ≤ hist_idx ∧ hist_idx < size then
        match st.hist.contents.get? hist_idx.toNat with
        | some (some line) =>
          match set_arguments line with
          | .error e => .error e
          | .ok (i_argc, i_argv) =>
            let cut := st.hist.contents.set hist_idx.toNat (some (strtok_buf [' '] line))
            match exec i_argc i_argv (st.with_hist { st.hist with contents := cut }) with
            | .ok r => record r
            | .error e => .error e
        | _ => .error .undefined
      else record (1, st)
    | _ => .error .undefined

/-- The function `process_internal`; `exec` is `execute_command`. -/
def process_internal (exec : Nat → List Arg → Session → Except Fault (Int × Session))
    (argc : Nat) (argv : List Arg) (st : Session) : Except Fault (Int × Session) :=
  if argc = 0 then .ok (-1, st)
  else
    match argv.head? with
    | some (Arg.live arg0) =>
      if arg0 = help_command then help argc argv st
      else if arg0 = history_command then history argc argv st
      else if arg0 = quit_command then quit argc argv st
      else if arg0 = verbose_command then verbose argc argv st
      else if arg0.head? = some '!' then bang exec argc argv st
      else .ok (0, st)
    | _ => .error .undefined

/-- The function `execute_command`. The first argument bounds the depth of
the chain `execute_command`, `process_internal`, `bang`, `execute_command`. -/
def execute_command (w : World) :
    Nat → Nat → List Arg → Session → Except Fault (Int × Session)
  | 0, _, _, _ => .error .fuel
  | fuel + 1, argc, argv, st =>
    if argc = 0 then .ok (-1, st)
    else
      match argv.head? with
      | some (Arg.live arg0) =>
        if is_internal arg0 then process_internal (execute_command w fuel) argc argv st
        else process_external w argc argv st
      | _ => .error .undefined

/-- One turn of the loop of `run` on what `getline` delivers (`none` at the end
of the input, else the line with its newline): whether the loop goes on, and the
session. In verbose mode `printf` reads through every element of `argv`. -/
def run_step (w : World) (fuel : Nat) (st : Session) (input : Option Str) :
    Except Fault (Bool × Session) :=
  let st1 : Session :=
    { st with out := st.out ++ [Out.prompt st.sequence],
              sequence := (st.sequence + 1) % 2 ^ 32 }
  match input with
  | none => .ok (false, { st1 with out := st1.out ++ [Out.newline] })
  | some raw =>
    if raw.length = 1 then .ok (true, st1)
    else
      match (strtok ['\n'] raw).1 with
      | none => .error .undefined
      | some line =>
        match (if line.head? ≠ some '!' then enqueue st1.hist line else .ok st1.hist) with
        | .error e => .error e
        | .ok hist =>
          match set_arguments line with
          | .error e => .error e
          | .ok (i_argc, i_argv) =>
            let printed : Except Fault (List Out) :=
              if st1.vflag ≠ 0 then
                match read_all i_argv with
                | .ok tokens => .ok (st1.out ++ [Out.tokens tokens])
                | .error e => .error e
              else .ok st1.out
            match printed with
            | .error e => .error e
            | .ok out =>
              let st2 : Session := { st1 with hist := hist, out := out }
              match execute_command w fuel i_argc i_argv st2 with
              | .error e => .error e
              | .ok (status, st3) => .ok (status != 0, st3)

/-- The function `run` on the lines that `getline` delivers before the end of
the input. -/
def run (w : World) (fuel : Nat) : List Str → Session → Except Fault Session
  | [], st =>
    match run_step w fuel st none with
    | .ok r => .ok r.2
    | .error e => .error e
  | raw :: inputs, st =>
    match run_step w fuel st (some raw) with
    | .ok (true, st1) => run w fuel inputs st1
    | .ok (false, st1) => .ok st1
    | .error e => .error e

/-- The state in which `main` calls `run`: an empty ledger of the given
capacity and `sequence = 1`. -/
def startup (history_capacity vflag : Nat) : Session :=
  { hist := create_queue history_capacity, vflag := vflag, sequence := 1, out := [] }

/-! ## Notions that the statements use -/

/-- A quote character, single or double. -/
def is_quote (c : Char) : Bool := c = '\'' || c = '"'

/-- The maximal runs of characters that are not separators, in order; `cur` is
the run being read. -/
def runs_aux (sep : Char → Bool) : Str → Str → List Str
  | cur, [] => if cur = [] then [] else [cur]
  | cur, c :: cs =>
    if sep c then (if cur = [] then runs_aux sep [] cs else cur :: runs_aux sep [] cs)
    else runs_aux sep (cur ++ [c]) cs

/-- The maximal runs of characters of `s` that are not separators, in order. -/
def runs (sep : Char → Bool) (s : Str) : List Str := runs_aux sep [] s

/-- The delimiter test of `strtok(..., " ")`. -/
def is_space (c : Char) : Bool := [' '].contains c

/-- What `set_arguments` yields on a line without quoted tokens: the runs of
characters other than the space, up to the first run that is white space
only. -/
def plain_tokens (line : Str) : List Str :=
  (runs is_space line).takeWhile (fun t => !is_empty t)

/-- The tokens ahead of the loop of `set_arguments` when none is quoted. -/
def tokens_ahead (arg : Option Str) (rest : Str) : List Str :=
  match arg with
  | none => []
  | some a => a :: runs is_space rest

/-- The number of turns that the loop of `set_arguments` needs at most. -/
def loop_measure (arg : Option Str) (rest : Str) : Nat :=
  match arg with
  | none => 1
  | some _ => rest.length + 2

/-- The decimal digits of `n` put before `acc`; the first argument bounds the
number of digits. -/
def decimal_aux : Nat → Nat → Str → Str
  | 0, _, acc => acc
  | fuel + 1, n, acc =>
    if n / 10 = 0 then Char.ofNat (48 + n % 10) :: acc
    else decimal_aux fuel (n / 10) (Char.ofNat (48 + n % 10) :: acc)

/-- The decimal numeral of `n`, as typed after `!`. -/
def decimal (n : Nat) : Str := decimal_aux (n + 1) n []

/-- A line tokenized and dispatched: `set_arguments`, then `execute_command`
on its result. -/
def dispatch (w : World) (fuel : Nat) (line : Str) (st : Session) :
    Except Fault (Int × Session) :=
  match set_arguments line with
  | .error e => .error e
  | .ok (argc, argv) => execute_command w fuel argc argv st

/-- The session once the prompt is printed, the counter advanced and, in
verbose mode, the tokens of the line printed. -/
def prompted (st : Session) (argv : List Str) : Session :=
  { st with out := if st.vflag ≠ 0 then st.out ++ [Out.prompt st.sequence] ++ [Out.tokens argv]
                   else st.out ++ [Out.prompt st.sequence],
            sequence := (st.sequence + 1) % 2 ^ 32 }

/-- The ledger with the entry at `idx` cut at the end of its first token, as
`strtok` leaves it. -/
def cut_entry (hist : Queue Str) (idx : Nat) (line : Str) : Queue Str :=
  { hist with contents := hist.contents.set idx (some (strtok_buf [' '] line)) }

/-- A host in which every command exits with code 0. -/
def calm : World := fun _ _ => WaitResult.exited 0

/-- The lines as `getline` delivers them: each with its newline. -/
def typed (lines : List String) : List Str := lines.map (fun s => s.toList ++ ['\n'])

/-- The session at prompt 4 after the lines `ls`, `pwd` and `echo hi`, with a
ledger of capacity 10. -/
def after_three : Session :=
  { hist := { contents := [some "ls".toList, some "pwd".toList, some "echo hi".toList,
                           none, none, none, none, none, none, none],
              size := 3, capacity := 10 },
    vflag := 0, sequence := 4, out := [] }

/-- The lines that `history` has printed, with their numbers. -/
def history_shown (out : List Out) : List (Int × Str) :=
  out.filterMap (fun o =>
    match o with
    | Out.history_line n l => some (n, l)
    | _ => none)

/-- The constant `DEFAULT_HISTORY`. -/
def DEFAULT_HISTORY : Nat := 10

/-- What `getopt` returns for the option string `vh:`, one value per option of
the command line: `-v`, `-h` with its argument, or an option that the `switch`
of `main` has no case for. -/
inductive Opt where
  | v
  | h (optarg : Str)
  | other
  deriving DecidableEq, Repr

/-- Conversion of an integer to `size_t` (64 bits, unsigned). -/
def toSizeT (x : Int) : Nat := (x % 2 ^ 64).toNat

/-- The `while` loop of `main` over the options, from the values of `vflag` and
`history_capacity` so far: `none` when the usage line is printed and `main`
returns, else the two values at the end. `history_capacity` is a `size_t`, and
the value of `strtol` is converted to `int` and then to `size_t`. -/
def main_options : List Opt → Nat → Nat → Option (Nat × Nat)
  | [], vflag, history_capacity => some (vflag, history_capacity)
  | Opt.v :: opts, _, history_capacity => main_options opts 1 history_capacity
  | Opt.h optarg :: opts, vflag, _ =>
    let history_capacity := toSizeT (toInt32 (strtol optarg))
    if history_capacity ≤ 0 then none else main_options opts vflag history_capacity
  | Opt.other :: opts, vflag, history_capacity => main_options opts vflag history_capacity

/-- The function `main` on the options of the command line and the lines of
the input: `none` when it prints the usage line and returns without a ledger
and without the read loop, else the session at the end of `run`. -/
def main (w : World) (fuel : Nat) (opts : List Opt) (inputs : List Str) :
    Except Fault (Option Session) :=
  match main_options opts 0 DEFAULT_HISTORY with
  | none => .ok none
  | some (vflag, history_capacity) =>
    match run w fuel inputs (startup history_capacity vflag) with
    | .ok st => .ok (some st)
    | .error e => .error e

/-! ## Further notions that the statements use -/

/-- A plain word: not empty, no white space, and no quote character at its
start. -/
def plain_word (w : Str) : Bool :=
  match w with
  | [] => false
  | c :: cs => !is_quote c && (c :: cs).all (fun x => !isspace x)

/-- Words with their gaps: each word is followed by one space and then by as
many more spaces as its number says. -/
def spaced : List (Str × Nat) → Str
  | [] => []
  | (w, n) :: ws => w ++ ' ' :: (List.replicate n ' ' ++ spaced ws)

/-- The session after the line `!1` at the first prompt, with a ledger of
capacity 10: the token is recorded, the counter is 2. -/
def after_bang_one : Session :=
  { hist := { contents := [some "!1".toList, none, none, none, none, none, none, none,
                           none, none],
              size := 1, capacity := 10 },
    vflag := 0, sequence := 2, out := [Out.prompt 1] }

/-- The session while the line `!1` of prompt 2 is dispatched after the line
`!1` of prompt 1: the counter is 3 and the ledger still holds one entry. -/
def in_replay : Session :=
  { hist := { contents := [some "!1".toList, none, none, none, none, none, none, none,
                           none, none],
              size := 1, capacity := 10 },
    vflag := 0, sequence := 3, out := [Out.prompt 1, Out.prompt 2] }

/-! ## Lemmas on the queue -/

theorem shift_down_append {α : Type} (l : List (Option α)) :
    ∀ (pre : List (Option α)) (a : Option α) (post : List (Option α)),
      shift_down l.length pre.length (pre ++ a :: l ++ post)
        = pre ++ l ++ (a :: l).getLast (by simp) :: post := by
  induction l with
  | nil => intro pre a post; simp [shift_down]
  | cons b l ih =>
    intro pre a post
    have h1 : (pre ++ a :: (b :: l) ++ post).getD (pre.length + 1) none = b := by
      have e : pre ++ a :: (b :: l) ++ post = (pre ++ [a]) ++ (b :: (l ++ post)) := by simp
      rw [e, List.getD_eq_getElem?_getD, List.getElem?_append_right (by simp)]
      simp
    have h2 : (pre ++ a :: (b :: l) ++ post).set pre.length b = (pre ++ [b]) ++ b :: l ++ post := by
      simp [List.set_append]
    simp only [List.length_cons, shift_down, h1, h2]
    have := ih (pre ++ [b]) b post
    simp only [List.length_append, List.length_singleton] at this
    rw [this]
    simp

theorem wf_create {α : Type} (C : Nat) : (create_queue C : Queue α).wf [] := by
  simp [Queue.wf, create_queue]

theorem dequeue_wf {α : Type} (q : Queue α) (x : α) (xs : List α) (h : q.wf (x :: xs)) :
    ∃ q1, dequeue q = .ok (some x, q1) ∧ q1.capacity = q.capacity ∧ q1.wf xs := by
  obtain ⟨hs, hc, hco⟩ := h
  simp only [List.length_cons] at hs hc
  have hlen : q.contents.length = q.capacity := by
    rw [hco]; simp; omega
  have e : q.contents = [] ++ some x :: xs.map some ++ List.replicate (q.capacity - (xs.length + 1)) none := by
    rw [hco]; simp
  have hsd : shift_down (q.size - 1) 0 q.contents
      = xs.map some ++ (some x :: xs.map some).getLast (by simp)
          :: List.replicate (q.capacity - (xs.length + 1)) none := by
    have := shift_down_append (xs.map some) [] (some x)
      (List.replicate (q.capacity - (xs.length + 1)) none)
    simp only [List.length_map, List.length_nil, List.nil_append] at this
    rw [e, hs]
    simpa using this
  refine ⟨⟨(shift_down (q.size - 1) 0 q.contents).set (q.size - 1) none, q.size - 1,
    q.capacity⟩, ?_, rfl, ?_⟩
  · unfold dequeue
    rw [if_neg (by omega), if_neg (by omega)]
    have : q.contents.getD 0 none = some x := by rw [hco]; simp
    rw [this]
  · refine ⟨by simp; omega, by simp; omega, ?_⟩
    have hsd2 : shift_down xs.length 0 q.contents
      = xs.map some ++ (some x :: xs.map some).getLast (by simp)
          :: List.replicate (q.capacity - (xs.length + 1)) none := by
      rw [← hsd, hs]; simp
    simp only [hs, Nat.add_sub_cancel, hsd2]
    rw [List.set_append_right _ _ (by simp)]
    simp only [List.length_map, Nat.sub_self, List.set_cons_zero]
    have : q.capacity - xs.length = (q.capacity - (xs.length + 1)) + 1 := by omega
    rw [this, List.replicate_succ]

theorem step_wf {α : Type} (q : Queue α) (xs : List α) (x : α) (h : q.wf xs)
    (hlt : xs.length < q.capacity) :
    (⟨q.contents.set q.size (some x), q.size + 1, q.capacity⟩ : Queue α).wf (xs ++ [x])
    ∧ q.size < q.contents.length := by
  obtain ⟨hs, hc, hco⟩ := h
  refine ⟨⟨by simp [hs], by simp; omega, ?_⟩, by rw [hco]; simp; omega⟩
  simp only [hco, hs]
  rw [List.set_append_right _ _ (by simp)]
  simp only [List.length_map, Nat.sub_self, List.length_append, List.length_singleton,
    List.map_append, List.map_cons, List.map_nil, List.append_assoc]
  have : q.capacity - xs.length = (q.capacity - (xs.length + 1)) + 1 := by omega
  rw [this, List.replicate_succ]
  simp

theorem enqueue_wf {α : Type} (q : Queue α) (xs : List α) (x : α) (h : q.wf xs)
    (hC : 1 ≤ q.capacity) :
    ∃ q1, enqueue q x = .ok q1 ∧ q1.capacity = q.capacity ∧ q1.wf (pushed q.capacity xs x) := by
  have hs := h.1
  by_cases hfull : xs.length = q.capacity
  · cases xs with
    | nil => simp at hfull; omega
    | cons y ys =>
      obtain ⟨q1, hd, hcap, hwf⟩ := dequeue_wf q y ys h
      have hlt : ys.length < q1.capacity := by simp at hfull; omega
      obtain ⟨hw, hb⟩ := step_wf q1 ys x hwf hlt
      refine ⟨⟨q1.contents.set q1.size (some x), q1.size + 1, q1.capacity⟩, ?_, ?_, ?_⟩
      · have hsc : q.size = q.capacity := by rw [hs]; exact hfull
        simp only [enqueue, hsc, if_true, hd, hb]
      · simp [hcap]
      · simpa [pushed, hfull] using hw
  · have hlt : xs.length < q.capacity := by have := h.2.1; omega
    obtain ⟨hw, hb⟩ := step_wf q xs x h hlt
    refine ⟨⟨q.contents.set q.size (some x), q.size + 1, q.capacity⟩, ?_, ?_, ?_⟩
    · unfold enqueue
      rw [if_neg (by omega)]
      simp only [hb, if_true]
    · rfl
    · simpa [pushed, hfull] using hw


theorem wf_items {α : Type} (q : Queue α) (xs : List α) (h : q.wf xs) :
    q.items = xs.map some := by
  obtain ⟨hs, _, hco⟩ := h
  simp [Queue.items, hs, hco]

/-! ## C2 -/

theorem strtok_nil (d : List Char) : strtok d [] = (none, []) := by
  simp [strtok]

theorem strtok_token (d : List Char) (tok rest : Str) (c : Char) (hne : tok ≠ [])
    (htok : ∀ x ∈ tok, x ∉ d) (hc : c ∈ d) :
    strtok d (tok ++ c :: rest) = (some tok, rest) := by
  obtain ⟨t, ts, rfl⟩ := List.exists_cons_of_ne_nil hne
  have ht : t ∉ d := htok t (by simp)
  have h1 : (t :: ts ++ c :: rest).dropWhile (fun c => d.contains c) = t :: ts ++ c :: rest := by
    simp [List.dropWhile_cons, ht]
  have h2 : (t :: ts ++ c :: rest).takeWhile (fun c => !d.contains c) = t :: ts := by
    rw [List.takeWhile_append_of_pos (by intro a ha; simp [htok a ha])]
    simp [List.takeWhile_cons, hc]
  have h3 : (t :: ts ++ c :: rest).dropWhile (fun c => !d.contains c) = c :: rest := by
    rw [List.dropWhile_append_of_pos (by intro a ha; simp [htok a ha])]
    simp [List.dropWhile_cons, hc]
  unfold strtok
  simp only [h1, h2, h3]
  simp

theorem strtok_last (d : List Char) (tok : Str) (hne : tok ≠ [])
    (htok : ∀ x ∈ tok, x ∉ d) :
    strtok d tok = (some tok, []) := by
  obtain ⟨t, ts, rfl⟩ := List.exists_cons_of_ne_nil hne
  have ht : t ∉ d := htok t (by simp)
  have h1 : (t :: ts).dropWhile (fun c => d.contains c) = t :: ts := by
    simp [List.dropWhile_cons, ht]
  have h2 : (t :: ts).takeWhile (fun c => !d.contains c) = t :: ts := by
    rw [List.takeWhile_eq_self_iff]; intro a ha; simp [htok a ha]
  have h3 : (t :: ts).dropWhile (fun c => !d.contains c) = [] := by
    rw [List.dropWhile_eq_nil_iff]; intro a ha; simp [htok a ha]
  unfold strtok
  simp only [h1, h2, h3]
  simp

theorem is_empty_false_of_mem (s : Str) (c : Char) (hc : c ∈ s) (h : isspace c = false) :
    is_empty s = false := by
  simp only [is_empty, List.all_eq_false]
  exact ⟨c, hc, by simp [h]⟩

theorem read_all_live (ss : List Str) : read_all (ss.map Arg.live) = .ok ss := by
  induction ss with
  | nil => rfl
  | cons s ss ih => simp [read_all, ih]

theorem slots_eq : ARGV_SLOTS = 320 := by decide

theorem loop_step_plain (fuel : Nat) (a rest : Str) (argv : List Arg)
    (h1 : a.head? ≠ none) (h2 : is_empty a = false)
    (h3 : ∀ c, a.head? = some c → is_quote c = false) (hb : argv.length < ARGV_SLOTS) :
    set_arguments_loop (fuel + 1) (some a) rest argv
      = set_arguments_loop fuel (strtok [' '] rest).1 (strtok [' '] rest).2
          (argv ++ [Arg.live a]) := by
  cases a with
  | nil => simp at h1
  | cons c cs =>
    have hq := h3 c rfl
    simp only [is_quote, Bool.or_eq_false_iff, decide_eq_false_iff_not] at hq
    have hb2 : ¬ ARGV_SLOTS ≤ argv.length := by omega
    simp [set_arguments_loop, h2, hq.1, hq.2, hb2]

theorem loop_step_quoted (fuel : Nat) (q : Char) (a rest e rest1 : Str) (argv : List Arg)
    (hq : is_quote q = true) (h2 : is_empty (q :: a) = false)
    (he : strtok ['"', '\''] rest = (some e, rest1)) (hb : argv.length < ARGV_SLOTS) :
    set_arguments_loop (fuel + 1) (some (q :: a)) rest argv
      = set_arguments_loop fuel (strtok [' '] rest1).1 (strtok [' '] rest1).2
          (argv ++ [Arg.dangling]) := by
  simp only [is_quote, Bool.or_eq_true, decide_eq_true_eq] at hq
  have : (q = '\'' ∨ q = '"') := hq
  have hb2 : ¬ ARGV_SLOTS ≤ argv.length := by omega
  simp [set_arguments_loop, h2, he, this, hb2]

/-- A store into a full array: the loop of `set_arguments` has no result. -/
theorem loop_step_full (fuel : Nat) (a rest : Str) (argv : List Arg)
    (h1 : a.head? ≠ none) (h2 : is_empty a = false) (hb : ARGV_SLOTS ≤ argv.length) :
    set_arguments_loop (fuel + 1) (some a) rest argv = .error .undefined := by
  cases a with
  | nil => simp at h1
  | cons c cs =>
    by_cases hq : (c = '\'' ∨ c = '"')
    · rcases hs : strtok ['"', '\''] rest with ⟨_ | e, rest1⟩ <;>
        simp [set_arguments_loop, h2, hs, hq, hb]
    · have hq1 : ¬ c = '\'' := fun h => hq (Or.inl h)
      have hq2 : ¬ c = '"' := fun h => hq (Or.inr h)
      simp [set_arguments_loop, h2, hq1, hq2, hb]

theorem isspace_false_of_quote (c : Char) (h : is_quote c = true) : isspace c = false := by
  simp only [is_quote, Bool.or_eq_true, decide_eq_true_eq] at h
  rcases h with rfl | rfl <;> decide

/-! ## C5 -/

/-- The argument of a quoted span dangles. For a line `c "x y"` (either quote
character at either end) where `c` is a non-empty word without white space or
quote characters, `x` has no space and no quote character and `y` is non-empty
without quote characters, `set_arguments` returns the count 2; the first
element of `argv` is `c`, and the second is the pointer `temp + 1` into the
array that ends with its block. -/
theorem quoted_span_dangles (c x y : Str) (q1 q2 : Char)
    (hc : c ≠ []) (hcs : ∀ ch ∈ c, isspace ch = false ∧ is_quote ch = false)
    (hq1 : is_quote q1 = true) (hq2 : is_quote q2 = true)
    (hx : ∀ ch ∈ x, ch ≠ ' ' ∧ is_quote ch = false)
    (hy : y ≠ []) (hys : ∀ ch ∈ y, is_quote ch = false) :
    set_arguments (c ++ ' ' :: q1 :: x ++ ' ' :: y ++ [q2]) = .ok (2, [Arg.live c, Arg.dangling]) := by
  have hsp : ∀ ch : Char, isspace ch = false → ch ∉ [' '] := by
    intro ch h
    have : ch ≠ ' ' := by rintro rfl; simp [isspace] at h
    simp [this]
  have hqd : ∀ ch : Char, is_quote ch = false → ch ∉ ['"', '\''] := by
    intro ch h
    simp only [is_quote, Bool.or_eq_false_iff, decide_eq_false_iff_not] at h
    simp [h.1, h.2]
  have hqd2 : q2 ∈ ['"', '\''] := by
    simp only [is_quote, Bool.or_eq_true, decide_eq_true_eq] at hq2
    rcases hq2 with rfl | rfl <;> decide
  have e0 : strtok [' '] (c ++ ' ' :: q1 :: x ++ ' ' :: y ++ [q2])
      = (some c, q1 :: x ++ ' ' :: y ++ [q2]) := by
    have := strtok_token [' '] c (q1 :: x ++ ' ' :: y ++ [q2]) ' ' hc
      (fun ch h => hsp ch (hcs ch h).1) (by decide)
    simpa using this
  have e1 : strtok [' '] (q1 :: x ++ ' ' :: y ++ [q2]) = (some (q1 :: x), y ++ [q2]) := by
    have := strtok_token [' '] (q1 :: x) (y ++ [q2]) ' ' (by simp)
      (by
        intro ch h
        rcases List.mem_cons.1 h with rfl | h
        · exact hsp _ (isspace_false_of_quote _ hq1)
        · simp [(hx ch h).1])
      (by decide)
    simpa using this
  have e2 : strtok ['"', '\''] (y ++ [q2]) = (some y, []) :=
    strtok_token ['"', '\''] y [] q2 hy (fun ch h => hqd ch (hys ch h)) hqd2
  obtain ⟨c0, cs, rfl⟩ := List.exists_cons_of_ne_nil hc
  have hc0 := hcs c0 (by simp)
  have hlen : (c0 :: cs ++ ' ' :: q1 :: x ++ ' ' :: y ++ [q2]).length + 1
      = (cs.length + x.length + y.length + 3) + 3 := by
    simp; omega
  unfold set_arguments
  simp only [e0, hlen]
  rw [loop_step_plain _ _ _ _ (by simp)
        (is_empty_false_of_mem _ c0 (by simp) hc0.1)
        (by intro ch h; simp at h; subst h; exact hc0.2) (by decide)]
  simp only [e1]
  rw [loop_step_quoted _ q1 x _ y [] _ hq1
        (is_empty_false_of_mem _ q1 (by simp) (isspace_false_of_quote _ hq1)) e2
        (by rw [slots_eq]; simp)]
  simp [strtok_nil, set_arguments_loop]

/-- C5 fails on the code. For every line of the form of the claim,
`set_arguments` returns the count 2 and `argv[0]` is `c`, but `argv[1]` is not
the string `x y`: it is the pointer `temp + 1`, and the array `temp` is gone
when the block of the quoted branch ends. So it is on the line
`echo "hello world"`, and in verbose mode the turn of the read loop on this
line reads through the pointer to print the tokens. -/
theorem quoted_argument_dangles :
    (∀ (c x y : Str) (q1 q2 : Char), c ≠ [] →
      (∀ ch ∈ c, isspace ch = false ∧ is_quote ch = false) →
      is_quote q1 = true → is_quote q2 = true →
      (∀ ch ∈ x, ch ≠ ' ' ∧ is_quote ch = false) →
      y ≠ [] → (∀ ch ∈ y, is_quote ch = false) →
      set_arguments (c ++ ' ' :: q1 :: x ++ ' ' :: y ++ [q2])
        = .ok (2, [Arg.live c, Arg.dangling])) ∧
    set_arguments "echo \"hello world\"".toList
      = .ok (2, [Arg.live "echo".toList, Arg.dangling]) ∧
    run_step calm 1 (startup 10 1) (some "echo \"hello world\"\n".toList)
      = .error .undefined :=
  ⟨fun c x y q1 q2 hc hcs hq1 hq2 hx hy hys =>
      quoted_span_dangles c x y q1 q2 hc hcs hq1 hq2 hx hy hys,
   by decide, by decide⟩

theorem strtok_eq_none (d : List Char) (s : Str)
    (h : s.dropWhile (fun c => d.contains c) = []) : strtok d s = (none, []) := by
  show (if s.dropWhile (fun c => d.contains c) = [] then _ else _) = _
  rw [if_pos h]

theorem strtok_eq_some (d : List Char) (s : Str)
    (h : s.dropWhile (fun c => d.contains c) ≠ []) :
    strtok d s = (some ((s.dropWhile (fun c => d.contains c)).takeWhile (fun c => !d.contains c)),
      ((s.dropWhile (fun c => d.contains c)).dropWhile (fun c => !d.contains c)).drop 1) := by
  show (if s.dropWhile (fun c => d.contains c) = [] then _ else _) = _
  rw [if_neg h]

theorem dropWhile_head_false {α : Type} (p : α → Bool) (s : List α) (t : α) (ts : List α)
    (h : s.dropWhile p = t :: ts) : p t = false := by
  induction s with
  | nil => simp at h
  | cons c cs ih =>
    by_cases hc : p c = true
    · rw [List.dropWhile_cons_of_pos hc] at h; exact ih h
    · rw [List.dropWhile_cons_of_neg hc] at h
      simp only [List.cons.injEq] at h
      rw [← h.1]; simpa using hc

theorem strtok_none_rest (d : List Char) (s : Str) (h : (strtok d s).1 = none) :
    (strtok d s).2 = [] := by
  by_cases h1 : s.dropWhile (fun c => d.contains c) = []
  · rw [strtok_eq_none d s h1]
  · rw [strtok_eq_some d s h1] at h; cases h

theorem strtok_some_props (d : List Char) (s a r : Str) (h : strtok d s = (some a, r)) :
    a ≠ [] ∧ (∀ c ∈ a, c ∈ s) ∧ (∀ c ∈ r, c ∈ s) ∧ r.length < s.length := by
  by_cases h1 : s.dropWhile (fun c => d.contains c) = []
  · rw [strtok_eq_none d s h1] at h; cases h
  · rw [strtok_eq_some d s h1] at h
    simp only [Prod.mk.injEq, Option.some.injEq] at h
    obtain ⟨ha, hr⟩ := h
    obtain ⟨t, ts, hts⟩ := List.exists_cons_of_ne_nil h1
    have hsub : (s.dropWhile (fun c => d.contains c)).Sublist s :=
      (List.dropWhile_suffix _).sublist
    have ht : d.contains t = false := dropWhile_head_false _ s t ts hts
    have hane : a ≠ [] := by
      rw [← ha, hts, List.takeWhile_cons_of_pos (by rw [ht]; rfl)]
      exact List.cons_ne_nil _ _
    have hlen := congrArg List.length
      (List.takeWhile_append_dropWhile (fun c => !d.contains c)
        (s.dropWhile (fun c => d.contains c)))
    rw [List.length_append, ha] at hlen
    have hal : 0 < a.length := List.length_pos.2 hane
    have hsl := hsub.length_le
    refine ⟨hane, ?_, ?_, ?_⟩
    · intro c hc
      rw [← ha] at hc
      exact hsub.subset ((List.takeWhile_prefix _).sublist.subset hc)
    · intro c hc
      rw [← hr] at hc
      exact hsub.subset ((List.dropWhile_suffix _).sublist.subset (List.mem_of_mem_drop hc))
    · rw [← hr, List.length_drop]
      omega

theorem runs_aux_cons (sep : Char → Bool) (s : Str) :
    ∀ cur : Str, cur ≠ [] →
      runs_aux sep cur s = (cur ++ s.takeWhile (fun c => !sep c))
        :: runs_aux sep [] ((s.dropWhile (fun c => !sep c)).drop 1) := by
  induction s with
  | nil => intro cur h; simp [runs_aux, h]
  | cons c cs ih =>
    intro cur h
    by_cases hc : sep c = true
    · simp [runs_aux, hc, h]
    · simp only [Bool.not_eq_true] at hc
      simp [runs_aux, hc, ih (cur ++ [c]) (by simp)]

theorem runs_aux_dropWhile (sep : Char → Bool) (s : Str) :
    runs_aux sep [] s = runs_aux sep [] (s.dropWhile sep) := by
  induction s with
  | nil => rfl
  | cons c cs ih =>
    by_cases hc : sep c = true
    · simp [runs_aux, hc, ih]
    · simp [List.dropWhile_cons, hc]

/-- The runs of a text, read off the first call of `strtok` on it. -/
theorem runs_strtok (d : List Char) (s : Str) :
    runs (fun c => d.contains c) s
      = match strtok d s with
        | (none, _) => []
        | (some a, r) => a :: runs (fun c => d.contains c) r := by
  unfold runs
  rw [runs_aux_dropWhile]
  by_cases h1 : s.dropWhile (fun c => d.contains c) = []
  · rw [strtok_eq_none d s h1, h1]; rfl
  · obtain ⟨t, ts, hts⟩ := List.exists_cons_of_ne_nil h1
    have ht : d.contains t = false := dropWhile_head_false _ s t ts hts
    rw [strtok_eq_some d s h1, hts]
    simp only
    rw [List.takeWhile_cons_of_pos (by rw [ht]; rfl), List.dropWhile_cons_of_pos (by rw [ht]; rfl)]
    simp only [runs_aux, ht, Bool.false_eq_true, if_false, List.nil_append]
    rw [runs_aux_cons _ ts [t] (by simp)]
    rfl

theorem tokens_ahead_strtok (s : Str) :
    tokens_ahead (strtok [' '] s).1 (strtok [' '] s).2 = runs is_space s := by
  have h := runs_strtok [' '] s
  rw [show runs is_space s = runs (fun c => [' '].contains c) s from rfl, h]
  rcases hs : strtok [' '] s with ⟨_ | a, r⟩ <;> rfl

theorem loop_measure_strtok (d : List Char) (s : Str) :
    loop_measure (strtok d s).1 (strtok d s).2 ≤ s.length + 1 := by
  rcases hs : strtok d s with ⟨_ | a, r⟩
  · simp [loop_measure]
  · have := (strtok_some_props d s a r hs).2.2.2
    simp only [loop_measure]; omega

theorem loop_plain (fuel : Nat) :
    ∀ (arg : Option Str) (rest : Str) (argv : List Arg),
      (∀ a, arg = some a → a ≠ [] ∧ ∀ c ∈ a, is_quote c = false) →
      (∀ c ∈ rest, is_quote c = false) →
      loop_measure arg rest ≤ fuel → argv.length ≤ ARGV_SLOTS →
      set_arguments_loop fuel arg rest argv
        = if argv.length + ((tokens_ahead arg rest).takeWhile (fun t => !is_empty t)).length
              ≤ ARGV_SLOTS
          then .ok (argv ++ ((tokens_ahead arg rest).takeWhile (fun t => !is_empty t)).map
                  Arg.live)
          else .error .undefined := by
  induction fuel with
  | zero =>
    intro arg rest argv _ _ hm
    cases arg <;> simp [loop_measure] at hm
  | succ fuel ih =>
    intro arg rest argv ha hr hm hcap
    cases arg with
    | none => simp [set_arguments_loop, tokens_ahead, hcap]
    | some a =>
      obtain ⟨hne, hq⟩ := ha a rfl
      by_cases he : is_empty a = true
      · simp [set_arguments_loop, tokens_ahead, he, hcap]
      · simp only [Bool.not_eq_true] at he
        obtain ⟨c0, cs, rfl⟩ := List.exists_cons_of_ne_nil hne
        have htw : (tokens_ahead (some (c0 :: cs)) rest).takeWhile (fun t => !is_empty t)
            = (c0 :: cs) :: (runs is_space rest).takeWhile (fun t => !is_empty t) := by
          simp [tokens_ahead, he]
        rw [htw]
        by_cases hb : argv.length < ARGV_SLOTS
        · rw [loop_step_plain fuel _ rest argv (by simp) he
            (by intro c hc; simp at hc; subst hc; exact hq _ (by simp)) hb]
          have hnext : ∀ b, (strtok [' '] rest).1 = some b →
              b ≠ [] ∧ ∀ c ∈ b, is_quote c = false := by
            intro b hb
            have hp := strtok_some_props [' '] rest b (strtok [' '] rest).2
              (by rw [← hb])
            exact ⟨hp.1, fun c hc => hr c (hp.2.1 c hc)⟩
          have hrest : ∀ c ∈ (strtok [' '] rest).2, is_quote c = false := by
            intro c hc
            rcases hs : strtok [' '] rest with ⟨_ | b, r⟩
            · rw [strtok_none_rest [' '] rest (by rw [hs])] at hc; simp at hc
            · rw [hs] at hc
              exact hr c ((strtok_some_props [' '] rest b r hs).2.2.1 c hc)
          have hmeas : loop_measure (strtok [' '] rest).1 (strtok [' '] rest).2 ≤ fuel := by
            have := loop_measure_strtok [' '] rest
            simp only [loop_measure] at hm
            omega
          rw [ih _ _ _ hnext hrest hmeas (by simp; omega), tokens_ahead_strtok]
          simp only [List.length_append, List.length_singleton, List.length_cons,
            List.length_nil, List.map_cons, List.append_assoc, List.singleton_append]
          generalize (List.takeWhile (fun t => !is_empty t) (runs is_space rest)) = T
          split_ifs with h1 h2 h2
          · rfl
          · exfalso; omega
          · exfalso; omega
          · rfl
        · rw [loop_step_full fuel _ rest argv (by simp) he (by omega)]
          simp only [List.length_cons]
          rw [if_neg (by omega)]

/-- On a line without quote characters `set_arguments` returns the runs of
characters other than the space, up to the first run of white space only, when
the array has room for them, and has no result when it has not. -/
theorem set_arguments_plain (line : Str) (hq : ∀ c ∈ line, is_quote c = false) :
    set_arguments line
      = if (plain_tokens line).length ≤ ARGV_SLOTS
        then .ok ((plain_tokens line).length, (plain_tokens line).map Arg.live)
        else .error .undefined := by
  have hfirst : ∀ b, (strtok [' '] line).1 = some b →
      b ≠ [] ∧ ∀ c ∈ b, is_quote c = false := by
    intro b hb
    have hp := strtok_some_props [' '] line b (strtok [' '] line).2 (by rw [← hb])
    exact ⟨hp.1, fun c hc => hq c (hp.2.1 c hc)⟩
  have hrest : ∀ c ∈ (strtok [' '] line).2, is_quote c = false := by
    intro c hc
    rcases hs : strtok [' '] line with ⟨_ | b, r⟩
    · rw [strtok_none_rest [' '] line (by rw [hs])] at hc; simp at hc
    · rw [hs] at hc
      exact hq c ((strtok_some_props [' '] line b r hs).2.2.1 c hc)
  have h := loop_plain (line.length + 1) _ _ [] hfirst hrest (loop_measure_strtok [' '] line)
    (by simp)
  rw [tokens_ahead_strtok] at h
  unfold set_arguments
  simp only [h, List.nil_append, List.length_nil, Nat.zero_add]
  by_cases hfit : (plain_tokens line).length ≤ ARGV_SLOTS
  · have hfit2 := hfit
    rw [plain_tokens] at hfit2
    rw [if_pos hfit, if_pos hfit2]
    simp [plain_tokens]
  · have hfit2 := hfit
    rw [plain_tokens] at hfit2
    rw [if_neg hfit, if_neg hfit2]

theorem runs_aux_congr (sep1 sep2 : Char → Bool) (s : Str) :
    ∀ cur : Str, (∀ c ∈ s, sep1 c = sep2 c) → runs_aux sep1 cur s = runs_aux sep2 cur s := by
  induction s with
  | nil => intro cur _; rfl
  | cons c cs ih =>
    intro cur h
    have hc : sep1 c = sep2 c := h c (by simp)
    have hcs : ∀ x ∈ cs, sep1 x = sep2 x := fun x hx => h x (by simp [hx])
    simp only [runs_aux, hc, ih _ hcs]

theorem runs_aux_mem (sep : Char → Bool) (s : Str) :
    ∀ cur : Str, (∀ c ∈ cur, sep c = false) →
      ∀ r ∈ runs_aux sep cur s, r ≠ [] ∧ ∀ c ∈ r, sep c = false := by
  induction s with
  | nil =>
    intro cur hcur r hr
    by_cases h : cur = []
    · simp [runs_aux, h] at hr
    · simp only [runs_aux, h, if_false, List.mem_singleton] at hr
      subst hr; exact ⟨h, hcur⟩
  | cons c cs ih =>
    intro cur hcur r hr
    by_cases hc : sep c = true
    · by_cases h : cur = []
      · simp only [runs_aux, hc, h, if_true] at hr
        exact ih [] (by simp) r hr
      · simp only [runs_aux, hc, h, if_true, if_false, List.mem_cons] at hr
        rcases hr with rfl | hr
        · exact ⟨h, hcur⟩
        · exact ih [] (by simp) r hr
    · simp only [Bool.not_eq_true] at hc
      simp only [runs_aux, hc, Bool.false_eq_true, if_false] at hr
      refine ih (cur ++ [c]) ?_ r hr
      intro x hx
      rcases List.mem_append.1 hx with hx | hx
      · exact hcur x hx
      · simp only [List.mem_singleton] at hx; subst hx; exact hc

/-- On a line whose only white space is the space, the runs of characters other
than the space are the runs of characters other than white space, and none of
them is white space only. -/
theorem plain_tokens_eq_runs (line : Str) (hsp : ∀ c ∈ line, isspace c = true → c = ' ') :
    plain_tokens line = runs isspace line := by
  have hcongr : runs is_space line = runs isspace line := by
    unfold runs
    apply runs_aux_congr
    intro c hc
    by_cases h : isspace c = true
    · rw [h, hsp c hc h]; rfl
    · simp only [Bool.not_eq_true] at h
      rw [h]
      have : c ≠ ' ' := by rintro rfl; exact absurd h (by decide)
      simp [is_space, this]
  rw [plain_tokens, hcongr, List.takeWhile_eq_self_iff]
  intro r hr
  obtain ⟨hne, hall⟩ := runs_aux_mem isspace line [] (by simp) r hr
  obtain ⟨c, cs, rfl⟩ := List.exists_cons_of_ne_nil hne
  have := is_empty_false_of_mem (c :: cs) c (by simp) (hall c (by simp))
  simp [this]

/-! ## Lemmas on lines of plain words -/

theorem dropWhile_replicate_append {α : Type} (p : α → Bool) (a : α) (hp : p a = true)
    (n : Nat) (s : List α) : (List.replicate n a ++ s).dropWhile p = s.dropWhile p := by
  induction n with
  | zero => rfl
  | succ n ih =>
    rw [List.replicate_succ, List.cons_append, List.dropWhile_cons_of_pos hp, ih]

theorem strtok_lead (n : Nat) (s : Str) :
    strtok [' '] (List.replicate n ' ' ++ s) = strtok [' '] s := by
  have h := dropWhile_replicate_append (fun c => [' '].contains c) ' ' (by decide) n s
  unfold strtok
  simp only [h]

theorem strtok_spaces (n : Nat) : strtok [' '] (List.replicate n ' ') = (none, []) := by
  have := strtok_lead n []
  rw [List.append_nil] at this
  rw [this, strtok_nil]

theorem plain_word_props (w : Str) (h : plain_word w = true) :
    w ≠ [] ∧ (∀ c ∈ w, c ∉ [' ']) ∧ is_empty w = false ∧ w.head? ≠ none ∧
    (∀ c, w.head? = some c → is_quote c = false) := by
  cases w with
  | nil => simp [plain_word] at h
  | cons c cs =>
    simp only [plain_word, Bool.and_eq_true, Bool.not_eq_true', List.all_eq_true] at h
    obtain ⟨hq, hall⟩ := h
    refine ⟨by simp, ?_, ?_, by simp, ?_⟩
    · intro x hx hmem
      simp only [List.mem_singleton] at hmem
      subst hmem
      exact absurd (hall _ hx) (by decide)
    · exact is_empty_false_of_mem _ c (by simp) (hall c (by simp))
    · intro d hd
      simp only [List.head?_cons, Option.some.injEq] at hd
      subst hd; exact hq

theorem spaced_length (ws : List (Str × Nat)) : ws.length ≤ (spaced ws).length := by
  induction ws with
  | nil => simp [spaced]
  | cons p ws ih =>
    obtain ⟨w, n⟩ := p
    simp only [spaced, List.length_cons, List.length_append, List.length_replicate]
    omega

theorem mem_spaced (ws : List (Str × Nat)) :
    ∀ c ∈ spaced ws, c = ' ' ∨ ∃ p ∈ ws, c ∈ p.1 := by
  induction ws with
  | nil => intro c hc; simp [spaced] at hc
  | cons p ws ih =>
    obtain ⟨w, n⟩ := p
    intro c hc
    simp only [spaced, List.mem_append, List.mem_cons, List.mem_replicate] at hc
    rcases hc with hc | hc | hc | hc
    · exact Or.inr ⟨(w, n), by simp, hc⟩
    · exact Or.inl hc
    · exact Or.inl hc.2
    · rcases ih c hc with h | ⟨p, hp, hcp⟩
      · exact Or.inl h
      · exact Or.inr ⟨p, by simp [hp], hcp⟩

/-- The loop of `set_arguments` over plain words, each followed by spaces:
one turn per word, each word stored as it is while the array has a free
element, and a store outside the array when it has none. -/
theorem loop_spaced (ws : List (Str × Nat)) :
    ∀ (fuel : Nat) (argv : List Arg) (tail : Str), (∀ p ∈ ws, plain_word p.1 = true) →
      argv.length ≤ ARGV_SLOTS →
      set_arguments_loop (fuel + ws.length) (strtok [' '] (spaced ws ++ tail)).1
          (strtok [' '] (spaced ws ++ tail)).2 argv
        = if argv.length + ws.length ≤ ARGV_SLOTS
          then set_arguments_loop fuel (strtok [' '] tail).1 (strtok [' '] tail).2
            (argv ++ ws.map (fun p => Arg.live p.1))
          else .error .undefined := by
  induction ws with
  | nil => intro fuel argv tail _ hcap; simp [spaced, hcap]
  | cons p ws ih =>
    intro fuel argv tail hws hcap
    obtain ⟨w, n⟩ := p
    obtain ⟨hne, hsp, hemp, hhead, hq⟩ := plain_word_props w (hws (w, n) (by simp))
    have e : spaced ((w, n) :: ws) ++ tail
        = w ++ ' ' :: (List.replicate n ' ' ++ (spaced ws ++ tail)) := by
      simp [spaced]
    rw [e, strtok_token [' '] w _ ' ' hne hsp (by simp)]
    simp only [List.length_cons]
    rw [show fuel + (ws.length + 1) = (fuel + ws.length) + 1 by omega]
    by_cases hb : argv.length < ARGV_SLOTS
    · rw [loop_step_plain _ w _ argv hhead hemp hq hb, strtok_lead,
        ih fuel (argv ++ [Arg.live w]) tail (fun p hp => hws p (by simp [hp]))
          (by simp; omega)]
      simp only [List.length_append, List.length_singleton, List.length_nil, List.length_cons,
        List.map_cons, List.append_assoc, List.singleton_append]
      split_ifs with h1 h2 h2
      · rfl
      · exfalso; omega
      · exfalso; omega
      · rfl
    · rw [loop_step_full _ w _ argv hhead hemp (by omega), if_neg (by omega)]

/-- Plain words split on spaces: for a line of the words `ws`, each followed
by one or more spaces, and a last word `w`, with any number of spaces before
the first and after the last, `set_arguments` returns the count and the words
when they fit in the array of the caller, and stores outside the array when
they do not. -/
theorem set_arguments_spaced (lead : Nat) (ws : List (Str × Nat)) (w : Str) (trail : Nat)
    (hws : ∀ p ∈ ws, plain_word p.1 = true) (hw : plain_word w = true) :
    set_arguments (List.replicate lead ' ' ++ (spaced ws ++ (w ++ List.replicate trail ' ')))
      = if ws.length + 1 ≤ ARGV_SLOTS
        then .ok (ws.length + 1, (ws.map Prod.fst ++ [w]).map Arg.live)
        else .error .undefined := by
  obtain ⟨hne, hsp, hemp, hhead, hq⟩ := plain_word_props w hw
  have hlen : ∃ f, (List.replicate lead ' ' ++
      (spaced ws ++ (w ++ List.replicate trail ' '))).length + 1 = (f + 2) + ws.length := by
    have h1 := spaced_length ws
    have h2 := List.length_pos.2 hne
    refine ⟨(List.replicate lead ' ' ++
      (spaced ws ++ (w ++ List.replicate trail ' '))).length + 1 - 2 - ws.length, ?_⟩
    simp only [List.length_append, List.length_replicate]
    omega
  obtain ⟨f, hf⟩ := hlen
  have hlast : ∃ k, strtok [' '] (w ++ List.replicate trail ' ')
      = (some w, List.replicate k ' ') := by
    cases trail with
    | zero =>
      refine ⟨0, ?_⟩
      rw [List.replicate_zero, List.append_nil]
      exact strtok_last [' '] w hne hsp
    | succ t =>
      refine ⟨t, ?_⟩
      rw [List.replicate_succ]
      exact strtok_token [' '] w _ ' ' hne hsp (by simp)
  obtain ⟨k, hk⟩ := hlast
  unfold set_arguments
  simp only [hf, strtok_lead]
  rw [loop_spaced ws (f + 2) [] _ hws (by simp), hk]
  simp only [List.length_nil, Nat.zero_add, List.nil_append]
  by_cases hfit : ws.length + 1 ≤ ARGV_SLOTS
  · rw [if_pos (by omega), if_pos hfit,
      loop_step_plain (f + 1) w _ _ hhead hemp hq (by simp; omega), strtok_spaces]
    simp [set_arguments_loop]
  · rw [if_neg hfit]
    by_cases hle : ws.length ≤ ARGV_SLOTS
    · rw [if_pos hle, loop_step_full (f + 1) w _ _ hhead hemp (by simp; omega)]
    · rw [if_neg hle]
/-! ## C8 -/

/-- C8 as stated fails: the tab is white space but not a delimiter, so the
line `a<TAB>b` is one argument although its runs of characters other than
white space are `a` and `b`; on `a <TAB> b` the token that is a tab alone
ends the loop, so `b` is not produced; and on a line of 321 words `a`, one
space between two of them, the 321st store is outside the 320 elements of the
array that `run` and `bang` allocate, so there is no result. -/
theorem whitespace_runs_counterexample :
    (∀ c ∈ "a\tb".toList, is_quote c = false) ∧
    set_arguments "a\tb".toList = .ok (1, [Arg.live "a\tb".toList]) ∧
    runs isspace "a\tb".toList = ["a".toList, "b".toList] ∧
    (∀ c ∈ "a \t b".toList, is_quote c = false) ∧
    set_arguments "a \t b".toList = .ok (1, [Arg.live "a".toList]) ∧
    runs isspace "a \t b".toList = ["a".toList, "b".toList] ∧
    (∀ c ∈ spaced (List.replicate 320 ("a".toList, 0)) ++ "a".toList, is_quote c = false) ∧
    set_arguments (spaced (List.replicate 320 ("a".toList, 0)) ++ "a".toList)
      = .error .undefined := by
  refine ⟨by decide, by decide, by decide, by decide, by decide, by decide, ?_, ?_⟩
  · intro c hc
    rcases List.mem_append.1 hc with hc | hc
    · rcases mem_spaced _ c hc with rfl | ⟨p, hp, hcp⟩
      · decide
      · rw [List.eq_of_mem_replicate hp] at hcp
        simp only [String.toList, List.mem_singleton] at hcp
        subst hcp; decide
    · simp only [String.toList, List.mem_singleton] at hc
      subst hc; decide
  · have h := set_arguments_spaced 0 (List.replicate 320 ("a".toList, 0)) "a".toList 0
      (fun p hp => by rw [List.eq_of_mem_replicate hp]; decide) (by decide)
    simp only [List.replicate_zero, List.nil_append, List.append_nil, List.length_replicate,
      slots_eq] at h
    exact h

/-- C8, amended: the tokenizer splits on runs of the space character only,
stops at the first token that is white space only, and has room for 320
arguments. For every line without quote characters, when the maximal runs of
characters other than the space, up to but not including the first run that
consists solely of white space, are at most `ARGV_SLOTS` = 320, `set_arguments`
returns exactly these runs, in order, with their count; when they are more, a
store falls outside the array of the caller and there is no result. When the
only white space of the line is the space, these runs are exactly the maximal
runs of characters other than white space. -/
theorem set_arguments_splits_on_spaces (line : Str)
    (hq : ∀ c ∈ line, is_quote c = false) :
    set_arguments line
      = (if ((runs is_space line).takeWhile (fun t => !is_empty t)).length ≤ ARGV_SLOTS
         then .ok (((runs is_space line).takeWhile (fun t => !is_empty t)).length,
             ((runs is_space line).takeWhile (fun t => !is_empty t)).map Arg.live)
         else .error .undefined) ∧
    ((∀ c ∈ line, isspace c = true → c = ' ') →
      set_arguments line
        = if (runs isspace line).length ≤ ARGV_SLOTS
          then .ok ((runs isspace line).length, (runs isspace line).map Arg.live)
          else .error .undefined) := by
  refine ⟨set_arguments_plain line hq, ?_⟩
  intro hsp
  rw [set_arguments_plain line hq, plain_tokens_eq_runs line hsp]

/-- Witness of C8, amended: the line `a <TAB> b`. -/
theorem set_arguments_splits_on_spaces_witness :
    (∀ c ∈ "a \t b".toList, is_quote c = false) ∧
    (set_arguments "a \t b".toList
      = (if ((runs is_space "a \t b".toList).takeWhile (fun t => !is_empty t)).length
            ≤ ARGV_SLOTS
         then .ok (((runs is_space "a \t b".toList).takeWhile (fun t => !is_empty t)).length,
             ((runs is_space "a \t b".toList).takeWhile (fun t => !is_empty t)).map Arg.live)
         else .error .undefined) ∧
    ((∀ c ∈ "a \t b".toList, isspace c = true → c = ' ') →
      set_arguments "a \t b".toList
        = if (runs isspace "a \t b".toList).length ≤ ARGV_SLOTS
          then .ok ((runs isspace "a \t b".toList).length,
            (runs isspace "a \t b".toList).map Arg.live)
          else .error .undefined)) :=
  ⟨by decide, set_arguments_splits_on_spaces "a \t b".toList (by decide)⟩
/-! ## C10 -/

theorem digit_char (d : Nat) (hd : d < 10) :
    (Char.ofNat (48 + d)).isDigit = true ∧ (Char.ofNat (48 + d)).toNat - 48 = d ∧
    Char.ofNat (48 + d) ≠ '-' ∧ Char.ofNat (48 + d) ≠ '+' ∧
    isspace (Char.ofNat (48 + d)) = false ∧ Char.ofNat (48 + d) ≠ ' ' ∧
    Char.ofNat (48 + d) ≠ '\n' ∧ is_quote (Char.ofNat (48 + d)) = false := by
  interval_cases d <;> decide

theorem strtol_digits_decimal_aux (n : Nat) :
    ∀ (fuel : Nat) (acc rest : Str), n < fuel →
      strtol_digits 0 (decimal_aux fuel n acc ++ rest) = strtol_digits n (acc ++ rest) := by
  induction n using Nat.strong_induction_on with
  | _ n ih =>
    intro fuel acc rest hf
    obtain ⟨f, rfl⟩ : ∃ f, fuel = f + 1 := ⟨fuel - 1, by omega⟩
    have hd := digit_char (n % 10) (Nat.mod_lt _ (by decide))
    by_cases hq : n / 10 = 0
    · have hn : n % 10 = n := by omega
      simp only [decimal_aux, hq, if_true, List.cons_append, strtol_digits, hd.1, hd.2.1]
      rw [hn]; simp
    · simp only [decimal_aux, hq, if_false]
      rw [ih (n / 10) (by omega) f _ rest (by omega)]
      simp only [List.cons_append, strtol_digits, hd.1, hd.2.1, if_true]
      congr 1; omega

theorem decimal_aux_chars (fuel : Nat) :
    ∀ (n : Nat) (acc : Str), (∀ c ∈ acc, ∃ d, d < 10 ∧ c = Char.ofNat (48 + d)) →
      ∀ c ∈ decimal_aux fuel n acc, ∃ d, d < 10 ∧ c = Char.ofNat (48 + d) := by
  induction fuel with
  | zero => intro n acc h; simpa [decimal_aux] using h
  | succ fuel ih =>
    intro n acc h
    have hd : ∀ c ∈ Char.ofNat (48 + n % 10) :: acc, ∃ d, d < 10 ∧ c = Char.ofNat (48 + d) := by
      intro c hc
      rcases List.mem_cons.1 hc with rfl | hc
      · exact ⟨n % 10, Nat.mod_lt _ (by decide), rfl⟩
      · exact h c hc
    by_cases hq : n / 10 = 0
    · simpa [decimal_aux, hq] using hd
    · simp only [decimal_aux, hq, if_false]
      exact ih _ _ hd

theorem decimal_aux_ne_nil (fuel : Nat) :
    ∀ (n : Nat) (acc : Str), decimal_aux (fuel + 1) n acc ≠ [] := by
  induction fuel with
  | zero => intro n acc; by_cases hq : n / 10 = 0 <;> simp [decimal_aux, hq]
  | succ fuel ih =>
    intro n acc
    by_cases hq : n / 10 = 0
    · simp [decimal_aux, hq]
    · rw [decimal_aux, if_neg hq]; exact ih _ _

theorem decimal_chars (n : Nat) : ∀ c ∈ decimal n, ∃ d, d < 10 ∧ c = Char.ofNat (48 + d) :=
  decimal_aux_chars _ _ _ (by simp)

theorem decimal_ne_nil (n : Nat) : decimal n ≠ [] := decimal_aux_ne_nil _ _ _

/-- The function `strtol` reads a decimal numeral back. -/
theorem strtol_decimal (n : Nat) (hn : n < 2 ^ 63) : strtol (decimal n) = n := by
  obtain ⟨c, cs, hcs⟩ := List.exists_cons_of_ne_nil (decimal_ne_nil n)
  obtain ⟨d, hd, hc⟩ := decimal_chars n c (by rw [hcs]; simp)
  have hdc := digit_char d hd
  rw [← hc] at hdc
  have hval : strtol_digits 0 (decimal n) = n := by
    have := strtol_digits_decimal_aux n (n + 1) [] [] (by omega)
    simpa [decimal, strtol_digits] using this
  have hdrop : (decimal n).dropWhile isspace = decimal n := by
    rw [hcs, List.dropWhile_cons_of_neg (by simp [hdc.2.2.2.2.1])]
  unfold strtol
  simp only [hdrop]
  rw [hcs] at hval ⊢
  split
  · next h => simp only [List.cons.injEq] at h; exact absurd h.1 hdc.2.2.1
  · next h => simp only [List.cons.injEq] at h; exact absurd h.1 hdc.2.2.2.1
  · rw [hval]
    simp only [LONG_MAX]
    have : (n : Int) < 2 ^ 63 := by exact_mod_cast hn
    omega

/-- The index arithmetic of `bang`: with the counter already advanced past
prompt `p`, a number `N` among the last `s` prompts resolves to the position
`N + s - p`. -/
theorem bang_index_resolves (N p s : Nat) (hp : p < 2 ^ 32) (hs : s < 2 ^ 31)
    (hlo : p ≤ N + s) (hhi : N < p) :
    bang_index (toInt32 (N : Int)) ((p + 1) % 2 ^ 32) (toInt32 (s : Int))
      = ((N + s - p : Nat) : Int) ∧ toInt32 (s : Int) = s := by
  have e1 : ((N + s - p : Nat) : Int) = (N : Int) + s - p := by omega
  rw [e1]
  simp only [bang_index, toInt32]
  norm_num
  constructor
  · split_ifs <;> omega
  · omega

/-! ## C9 -/

/-- C9 as stated fails: `verbose maybe` prints the usage line and returns
Continue (1), not Error (-1). -/
theorem verbose_bad_argument_counterexample :
    verbose 2 [Arg.live "verbose".toList, Arg.live "maybe".toList] (startup 10 0)
      = .ok (1, { startup 10 0 with out := [Out.usage_verbose] }) := by
  decide

/-- C9, amended: for every argument vector whose first token is `verbose` and
whose argument is present and is any string other than `on` and `off`,
`verbose` prints the usage line and returns the Continue status (1); the
verbose flag, the ledger and the sequence counter keep their values. -/
theorem verbose_bad_argument (argc : Nat) (x : Str) (more : List Arg) (st : Session)
    (hon : x ≠ "on".toList) (hoff : x ≠ "off".toList) :
    verbose argc (Arg.live verbose_command :: Arg.live x :: more) st
      = .ok (1, { st with out := st.out ++ [Out.usage_verbose] }) := by
  have hon2 : x ≠ ['o', 'n'] := hon
  have hoff2 : x ≠ ['o', 'f', 'f'] := hoff
  simp [verbose, usage_guard, hon2, hoff2]

/-- Witness of C9, amended: `verbose maybe` with the flag set. -/
theorem verbose_bad_argument_witness :
    verbose 2 [Arg.live verbose_command, Arg.live "maybe".toList] (startup 10 1)
      = .ok (1, { startup 10 1 with out := (startup 10 1).out ++ [Out.usage_verbose] }) :=
  verbose_bad_argument 2 "maybe".toList [] (startup 10 1) (by decide) (by decide)

/-! ## C7 -/

/-- C7: a replay out of range is a recorded no-op. In every session whose
ledger is a queue of capacity at least 1, for every argument vector with
`argc ≥ 1` whose first token `arg0` resolves to an index that is negative or at
least `size`, `bang` calls no dispatch (the result does not depend on `exec`
and the output is unchanged), puts `arg0` itself into the ledger (the oldest
entry leaves first when the ledger is full), leaves the verbose flag and the
sequence counter unchanged and returns Continue (1). -/
theorem bang_out_of_range (exec : Nat → List Arg → Session → Except Fault (Int × Session))
    (argc : Nat) (arg0 : Str) (more : List Arg) (st : Session) (items : List Str)
    (hargc : 1 ≤ argc) (hwf : st.hist.wf items) (hcap : 1 ≤ st.hist.capacity)
    (hout : ¬ (0 ≤ bang_index (toInt32 (strtol (arg0.drop 1))) st.sequence
                    (toInt32 st.hist.size) ∧
               bang_index (toInt32 (strtol (arg0.drop 1))) st.sequence
                    (toInt32 st.hist.size) < toInt32 st.hist.size)) :
    ∃ hist : Queue Str,
      bang exec argc (Arg.live arg0 :: more) st
        = .ok (1, { hist := hist, vflag := st.vflag, sequence := st.sequence, out := st.out }) ∧
      enqueue st.hist arg0 = .ok hist ∧
      hist.wf ((if items.length = st.hist.capacity then items.tail else items) ++ [arg0]) := by
  obtain ⟨hist, he, _, hw⟩ := enqueue_wf st.hist items arg0 hwf hcap
  refine ⟨hist, ?_, he, hw⟩
  unfold bang
  rw [if_neg (by omega)]
  simp only [List.head?_cons]
  rw [if_neg hout]
  simp only [he]
  rfl

/-- Witness of C7: `!99` at the first prompt of a session. -/
theorem bang_out_of_range_witness :
    ∃ hist : Queue Str,
      bang (fun _ _ st => .ok (0, st)) 1 (Arg.live "!99".toList :: [])
          { startup 10 0 with sequence := 2 }
        = .ok (1, { hist := hist, vflag := 0, sequence := 2, out := [] }) ∧
      enqueue (startup 10 0).hist "!99".toList = .ok hist ∧
      hist.wf ((if ([] : List Str).length = 10 then ([] : List Str).tail else []) ++ ["!99".toList]) :=
  bang_out_of_range (fun _ _ st => .ok (0, st)) 1 "!99".toList []
    { startup 10 0 with sequence := 2 } [] (by decide) (wf_create 10) (by decide) (by decide)

/-! ## Lemmas on the dispatch of a bang line -/

theorem set_arguments_word (t : Str) (hne : t ≠ [])
    (ht : ∀ c ∈ t, c ≠ ' ' ∧ is_quote c = false) (he : is_empty t = false) :
    set_arguments t = .ok (1, [Arg.live t]) := by
  have hr : runs is_space t = [t] := by
    have h := runs_strtok [' '] t
    rw [strtok_last [' '] t hne (by intro x hx; simp [(ht x hx).1])] at h
    simp only at h
    rw [show runs is_space t = runs (fun c => [' '].contains c) t from rfl, h]
    rfl
  rw [set_arguments_plain t (fun c hc => (ht c hc).2)]
  simp [plain_tokens, hr, he, slots_eq]

/-- The token `!N`. -/
theorem bang_token_props (n : Nat) :
    (∀ c ∈ '!' :: decimal n, c ≠ ' ' ∧ is_quote c = false) ∧
    (∀ c ∈ '!' :: decimal n, c ∉ ['\n']) ∧ is_empty ('!' :: decimal n) = false := by
  refine ⟨?_, ?_, ?_⟩
  · intro c hc
    rcases List.mem_cons.1 hc with rfl | hc
    · decide
    · obtain ⟨d, hd, rfl⟩ := decimal_chars n c hc
      have := digit_char d hd
      exact ⟨this.2.2.2.2.2.1, this.2.2.2.2.2.2.2⟩
  · intro c hc
    rcases List.mem_cons.1 hc with rfl | hc
    · decide
    · obtain ⟨d, hd, rfl⟩ := decimal_chars n c hc
      have := digit_char d hd
      simp [this.2.2.2.2.2.2.1]
  · exact is_empty_false_of_mem _ '!' (by simp) (by decide)

theorem execute_command_bang (w : World) (fuel argc : Nat) (t : Str) (more : List Arg)
    (st : Session) (hargc : argc ≠ 0) :
    execute_command w (fuel + 1) argc (Arg.live ('!' :: t) :: more) st
      = bang (execute_command w fuel) argc (Arg.live ('!' :: t) :: more) st := by
  have h1 : ('!' :: t) ≠ help_command := by simp [help_command]
  have h2 : ('!' :: t) ≠ history_command := by simp [history_command]
  have h3 : ('!' :: t) ≠ quit_command := by simp [quit_command]
  have h4 : ('!' :: t) ≠ verbose_command := by simp [verbose_command]
  simp [execute_command, process_internal, is_internal, hargc, h1, h2, h3, h4]

theorem wf_get {α : Type} (q : Queue α) (xs : List α) (h : q.wf xs) (i : Nat) (x : α)
    (hx : xs.get? i = some x) : q.contents.get? i = some (some x) := by
  have hi : i < xs.length := by
    rw [List.get?_eq_getElem?] at hx
    exact (List.getElem?_eq_some_iff.1 hx).1
  rw [h.2.2, List.get?_eq_getElem?, List.getElem?_append_left (by simpa using hi)]
  rw [List.get?_eq_getElem?] at hx
  simp [hx]

/-- The function `bang` on an index in range: the entry is tokenized in place
and dispatched, then the token is recorded. -/
theorem bang_in_range (exec : Nat → List Arg → Session → Except Fault (Int × Session))
    (argc : Nat) (arg0 : Str) (more : List Arg) (st : Session) (items : List Str)
    (line : Str) (hargc : argc ≠ 0) (hwf : st.hist.wf items)
    (hcond : 0 ≤ bang_index (toInt32 (strtol (arg0.drop 1))) st.sequence
                    (toInt32 st.hist.size) ∧
             bang_index (toInt32 (strtol (arg0.drop 1))) st.sequence
                    (toInt32 st.hist.size) < toInt32 st.hist.size)
    (hline : items.get? (bang_index (toInt32 (strtol (arg0.drop 1))) st.sequence
                    (toInt32 st.hist.size)).toNat = some line) :
    bang exec argc (Arg.live arg0 :: more) st
      = match set_arguments line with
        | .error e => .error e
        | .ok (i_argc, i_argv) =>
          match exec i_argc i_argv (st.with_hist (cut_entry st.hist
              (bang_index (toInt32 (strtol (arg0.drop 1))) st.sequence
                    (toInt32 st.hist.size)).toNat line)) with
          | .error e => .error e
          | .ok r =>
            match enqueue r.2.hist arg0 with
            | .error e => .error e
            | .ok hist => .ok (r.1, r.2.with_hist hist) := by
  have hget := wf_get st.hist items hwf _ line hline
  unfold bang
  rw [if_neg hargc]
  simp only [List.head?_cons]
  rw [if_pos hcond]
  simp only [hget, cut_entry]
  rcases hset : set_arguments line with e | ⟨i_argc, i_argv⟩
  · rfl
  · simp only
    rcases hex : exec i_argc i_argv _ with e | r
    · rfl
    · simp only
      rcases henq : enqueue r.2.hist arg0 with e | hist <;> rfl

/-! ## C1 -/

/-- C1: a replay resolves to the entry with the requested number. In every
session at a prompt `p = sequence` whose ledger holds, in order, exactly the
`s` lines read at the prompts `p - s`, ..., `p - 1`, when the line `!N` with
`p - s ≤ N ≤ p - 1` is read, the turn of the read loop is exactly: tokenize and
dispatch the line read at prompt `N` (position `N + s - p` of the ledger), then
record the token `!N`. -/
theorem replay_resolves (w : World) (fuel : Nat) (st : Session) (lines : List Str)
    (N : Nat) (lineN : Str)
    (hwf : st.hist.wf lines) (hs : lines.length < 2 ^ 31) (hp : st.sequence < 2 ^ 32)
    (hlo : st.sequence ≤ N + lines.length) (hhi : N < st.sequence)
    (hline : lines.get? (N + lines.length - st.sequence) = some lineN) :
    run_step w (fuel + 2) st (some ('!' :: decimal N ++ ['\n']))
      = match dispatch w (fuel + 1) lineN
            ((prompted st ['!' :: decimal N]).with_hist
              (cut_entry st.hist (N + lines.length - st.sequence) lineN)) with
        | .error e => .error e
        | .ok r =>
          match enqueue r.2.hist ('!' :: decimal N) with
          | .error e => .error e
          | .ok hist => .ok (r.1 != 0, r.2.with_hist hist) := by
  obtain ⟨h1, h2, h3⟩ := bang_token_props N
  have hN63 : N < 2 ^ 63 := by omega
  have etok : strtok ['\n'] ('!' :: decimal N ++ ['\n']) = (some ('!' :: decimal N), []) :=
    strtok_token ['\n'] ('!' :: decimal N) [] '\n' (by simp) h2 (by simp)
  have eargs := set_arguments_word ('!' :: decimal N) (by simp) h1 h3
  have hidx := bang_index_resolves N st.sequence lines.length hp hs hlo hhi
  have hlen : ('!' :: decimal N ++ ['\n']).length ≠ 1 := by
    simp
  have hi : bang_index (toInt32 (strtol (('!' :: decimal N).drop 1)))
      ((prompted st ['!' :: decimal N]).with_hist st.hist).sequence
      (toInt32 ((prompted st ['!' :: decimal N]).with_hist st.hist).hist.size)
        = ((N + lines.length - st.sequence : Nat) : Int) := by
    simp only [List.drop_succ_cons, List.drop_zero, strtol_decimal N hN63, prompted,
      Session.with_hist, hwf.1]
    exact hidx.1
  have hb := bang_in_range (execute_command w (fuel + 1)) 1 ('!' :: decimal N) []
    ((prompted st ['!' :: decimal N]).with_hist st.hist) lines lineN (by decide) hwf
    (by
      rw [hi]
      simp only [Session.with_hist, hwf.1, hidx.2]
      omega)
    (by rw [hi]; simpa using hline)
  rw [hi] at hb
  simp only [Int.toNat_ofNat] at hb
  have hread : read_all [Arg.live ('!' :: decimal N)] = .ok ['!' :: decimal N] :=
    read_all_live ['!' :: decimal N]
  unfold run_step
  simp only [hlen, if_false, etok, List.head?_cons, ne_eq, not_true_eq_false, eargs, hread]
  by_cases hv : st.vflag = 0
  all_goals
    simp only [hv, not_true_eq_false, not_false_eq_true, if_true, if_false]
    rw [execute_command_bang w (fuel + 1) 1 (decimal N) [] _ (by decide)]
    simp only [prompted, Session.with_hist, ne_eq, hv, not_true_eq_false, not_false_eq_true,
      if_true, if_false] at hb ⊢
    rw [hb]
    simp only [dispatch, cut_entry]
    rcases hset : set_arguments lineN with e | ⟨i_argc, i_argv⟩
    · rfl
    · simp only
      rcases hex : execute_command w (fuel + 1) i_argc i_argv _ with e | ⟨status, st3⟩
      · rfl
      · simp only
        rcases henq : enqueue st3.hist ('!' :: decimal N) with e | hist <;> rfl

/-- Witness of C1: with the ledger `ls`, `pwd`, `echo hi` of the prompts 1, 2, 3,
the line `!2` read at prompt 4 dispatches `pwd`: the turn starts `/bin/pwd` with
the arguments `pwd` and records `!2`. -/
theorem replay_resolves_witness :
    run_step calm 2 after_three (some ('!' :: decimal 2 ++ ['\n']))
      = (match dispatch calm 1 "pwd".toList
            ((prompted after_three ['!' :: decimal 2]).with_hist
              (cut_entry after_three.hist (2 + 3 - 4) "pwd".toList)) with
        | .error e => .error e
        | .ok r =>
          match enqueue r.2.hist ('!' :: decimal 2) with
          | .error e => .error e
          | .ok hist => .ok (r.1 != 0, r.2.with_hist hist)) ∧
    run_step calm 2 after_three (some "!2\n".toList)
      = .ok (true,
          { hist := { contents := [some "ls".toList, some "pwd".toList, some "echo hi".toList,
                                   some "!2".toList, none, none, none, none, none, none],
                      size := 4, capacity := 10 },
            vflag := 0, sequence := 5,
            out := [Out.prompt 4, Out.fork "/bin/pwd".toList [Arg.live "pwd".toList]] }) :=
  ⟨replay_resolves calm 0 after_three ["ls".toList, "pwd".toList, "echo hi".toList] 2
      "pwd".toList ⟨rfl, by decide, rfl⟩ (by decide) (by decide) (by decide) (by decide) rfl,
   by decide⟩

/-! ## C6 -/

/-- C6 fails on the code: after the lines `echo hi` and `!1`, `history` prints
the first entry as `echo`. The replay hands the stored entry to
`set_arguments`, and `strtok` cuts it after its first token. -/
theorem replay_cuts_entry :
    (run calm 2 (typed ["echo hi", "!1", "history"]) (startup 10 0)).map
        (fun st => history_shown st.out)
      = .ok [(1, "echo".toList), (2, "!1".toList), (3, "history".toList)] := by
  decide

/-! ## C4 -/

/-- C4 as stated fails: when the replayed entry is itself a bang command, the
replay records two entries. With the ledger `!5` alone and the counter at 3,
`!1` replays `!5`, which is out of range and records itself, and then `!1` is
recorded. -/
theorem nested_replay_counterexample :
    (bang (execute_command calm 2) 1 [Arg.live "!1".toList]
        { hist := { contents := [some "!5".toList, none, none], size := 1, capacity := 3 },
          vflag := 0, sequence := 3, out := [] }).map (fun r => r.2.hist.items)
      = .ok [some "!5".toList, some "!5".toList, some "!1".toList] := by
  decide

/-! ## Lemmas on a dispatch that is not a replay -/

theorem history_loop_spec (sequence size : Nat) (xs : List Str) :
    ∀ i : Nat, ∃ outs, history_loop sequence size (xs.map some) i = .ok outs ∧
      ∀ p ∈ history_shown outs, ∃ j, xs.get? j = some p.2 ∧
        p.1 = toInt64 ((sequence : Int) - size + ((i + j : Nat) : Int)) := by
  induction xs with
  | nil => intro i; exact ⟨[], rfl, by simp [history_shown]⟩
  | cons x xs ih =>
    intro i
    obtain ⟨outs, ho, hmem⟩ := ih (i + 1)
    refine ⟨Out.history_line (toInt64 ((sequence : Int) - size + i)) x :: outs, ?_, ?_⟩
    · simp only [List.map_cons, history_loop, ho]
    · intro p hp
      simp only [history_shown, List.filterMap_cons, List.mem_cons] at hp
      rcases hp with rfl | hp
      · exact ⟨0, rfl, by simp⟩
      · obtain ⟨j, hj, hn⟩ := hmem p hp
        refine ⟨j + 1, by simpa using hj, ?_⟩
        rw [hn]; congr 1; push_cast; ring

theorem history_shown_append (a b : List Out) :
    history_shown (a ++ b) = history_shown a ++ history_shown b := by
  simp [history_shown, List.filterMap_append]

/-- A dispatch whose command does not begin with `!` leaves the ledger and the
counter alone; what it adds to the lines shown by `history` is nothing, or,
when the command is `history`, the listing of the ledger. -/
theorem execute_plain_frame (w : World) (fuel argc : Nat) (argv : List Arg)
    (st st1 : Session) (status : Int)
    (hnb : ∀ a, argv.head? = some (Arg.live a) → a.head? ≠ some '!')
    (h : execute_command w (fuel + 1) argc argv st = .ok (status, st1)) :
    st1.hist = st.hist ∧ st1.sequence = st.sequence ∧
    (history_shown st1.out = history_shown st.out ∨
      (argv.head? = some (Arg.live history_command) ∧
        ∃ outs, history_loop st.sequence st.hist.size st.hist.items 0 = .ok outs ∧
          st1.out = st.out ++ outs)) := by
  unfold execute_command at h
  by_cases hargc : argc = 0
  · simp only [hargc, if_true, Except.ok.injEq, Prod.mk.injEq] at h
    rw [← h.2]; exact ⟨rfl, rfl, Or.inl rfl⟩
  · rw [if_neg hargc] at h
    cases argv with
    | nil => simp at h
    | cons a0 more =>
      cases a0 with
      | dangling => simp at h
      | live a =>
      have ha := hnb a rfl
      simp only [List.head?_cons] at h
      by_cases hint : is_internal a = true
      · rw [if_pos hint] at h
        unfold process_internal at h
        rw [if_neg hargc] at h
        simp only [List.head?_cons] at h
        have hg : ∀ name, usage_guard 0 argc (Arg.live a :: more) name = .ok false := by
          intro name; simp [usage_guard, hargc]
        split_ifs at h with h1 h2 h3 h4
        · simp only [help, hg, Except.ok.injEq, Prod.mk.injEq] at h
          rw [← h.2]
          exact ⟨rfl, rfl, Or.inl (by simp [history_shown_append, history_shown])⟩
        · simp only [history, hg] at h
          split_ifs at h
          rcases hl : history_loop st.sequence st.hist.size st.hist.items 0 with e | outs
          · rw [hl] at h; cases h
          · rw [hl] at h
            simp only [Except.ok.injEq, Prod.mk.injEq] at h
            rw [← h.2]
            exact ⟨rfl, rfl, Or.inr ⟨by rw [h2]; rfl, outs, rfl, rfl⟩⟩
        · simp only [quit, hg, Except.ok.injEq, Prod.mk.injEq] at h
          rw [← h.2]; exact ⟨rfl, rfl, Or.inl rfl⟩
        · have hg1 : usage_guard 1 argc (Arg.live a :: more) verbose_command = .ok false := by
            simp [usage_guard, h4]
          simp only [verbose, hg1] at h
          rcases hm : (Arg.live a :: more).get? 1 with _ | x
          · rw [hm] at h; cases h
          · rw [hm] at h
            cases x with
            | dangling => cases h
            | live x =>
              simp only at h
              split_ifs at h <;>
                (simp only [Except.ok.injEq, Prod.mk.injEq] at h
                 rw [← h.2]
                 exact ⟨rfl, rfl, Or.inl (by simp [history_shown_append, history_shown])⟩)
        · simp only [Except.ok.injEq, Prod.mk.injEq] at h
          rw [← h.2]; exact ⟨rfl, rfl, Or.inl rfl⟩
      · rw [if_neg hint] at h
        unfold process_external at h
        rw [if_neg hargc] at h
        simp only [List.head?_cons] at h
        split at h <;>
          (simp only [Except.ok.injEq, Prod.mk.injEq] at h
           rw [← h.2]
           exact ⟨rfl, rfl, Or.inl (by simp [history_shown_append, history_shown])⟩)

theorem history_total (argc : Nat) (argv : List Arg) (st : Session) (items : List Str)
    (hargc : argc ≠ 0) (hwf : st.hist.wf items) :
    ∃ st1, history argc argv st = .ok (1, st1) := by
  have hg : usage_guard 0 argc argv history_command = .ok false := by
    simp [usage_guard, hargc]
  have hlen : ¬ st.hist.contents.length < st.hist.size := by
    rw [hwf.2.2, hwf.1]; simp
  obtain ⟨outs, ho, _⟩ := history_loop_spec st.sequence st.hist.size items 0
  rw [← wf_items st.hist items hwf] at ho
  exact ⟨{ st with out := st.out ++ outs }, by simp only [history, hg, if_neg hlen, ho]⟩

/-- A dispatch whose command is a string that does not begin with `!` returns,
unless it is `verbose` without an argument that is a string. -/
theorem execute_plain_total (w : World) (fuel argc : Nat) (argv : List Arg)
    (st : Session) (items : List Str) (hwf : st.hist.wf items)
    (hnb : ∀ a, argv.head? = some a → ∃ s, a = Arg.live s ∧ s.head? ≠ some '!')
    (hargv : argc ≠ 0 → argv ≠ [])
    (hverb : argv.head? = some (Arg.live verbose_command) →
      ∃ x, argv.get? 1 = some (Arg.live x)) :
    ∃ status st1, execute_command w (fuel + 1) argc argv st = .ok (status, st1) := by
  unfold execute_command
  by_cases hargc : argc = 0
  · exact ⟨-1, st, by rw [if_pos hargc]⟩
  · rw [if_neg hargc]
    cases argv with
    | nil => exact absurd rfl (hargv hargc)
    | cons a0 more =>
      obtain ⟨a, rfl, ha⟩ := hnb a0 rfl
      simp only [List.head?_cons]
      by_cases hint : is_internal a = true
      · rw [if_pos hint]
        unfold process_internal
        rw [if_neg hargc]
        simp only [List.head?_cons]
        have hg : ∀ name, usage_guard 0 argc (Arg.live a :: more) name = .ok false := by
          intro name; simp [usage_guard, hargc]
        split_ifs with h1 h2 h3 h4
        · exact ⟨1, { st with out := st.out ++ [Out.help] }, by simp only [help, hg]⟩
        · obtain ⟨st1, h⟩ := history_total argc (Arg.live a :: more) st items hargc hwf
          exact ⟨_, _, h⟩
        · exact ⟨0, st, by simp only [quit, hg]⟩
        · have hg1 : usage_guard 1 argc (Arg.live a :: more) verbose_command = .ok false := by
            simp [usage_guard, h4]
          obtain ⟨x, hm⟩ := hverb (by rw [h4]; rfl)
          simp only [verbose, hg1, hm]
          split_ifs <;> exact ⟨_, _, rfl⟩
        · exact ⟨_, _, rfl⟩
      · rw [if_neg hint]
        unfold process_external
        rw [if_neg hargc]
        simp only [List.head?_cons]
        split <;> exact ⟨_, _, rfl⟩

theorem wf_cut (q : Queue Str) (items : List Str) (idx : Nat) (line : Str)
    (hwf : q.wf items) (hidx : idx < items.length) :
    (cut_entry q idx line).wf (items.set idx (strtok_buf [' '] line)) := by
  obtain ⟨hs, hc, hco⟩ := hwf
  refine ⟨by simpa using hs, by simpa using hc, ?_⟩
  simp only [cut_entry, hco, List.length_set]
  rw [List.set_append_left _ _ (by simpa using hidx), List.map_set]

/-- C4, amended: the ledger effect of a replay of an entry that is not itself a
bang command. In every session with a well-formed ledger, for every bang token
`arg0` whose index resolves in range to an entry `line` that tokenizes, whose
first argument is a string that does not begin with `!` and is not `verbose`
without an argument that is a string, `bang` returns, the sequence counter is unchanged, and the ledger
afterwards is the ledger before, the text of the replayed entry apart, with
exactly one entry appended, the token `arg0` itself (the oldest entry is
evicted first when the ledger was full). -/
theorem replay_appends_token (w : World) (fuel argc : Nat) (arg0 : Str) (more : List Arg)
    (st : Session) (items : List Str) (line : Str) (i_argc : Nat) (i_argv : List Arg)
    (hargc : argc ≠ 0) (hwf : st.hist.wf items)
    (hcond : 0 ≤ bang_index (toInt32 (strtol (arg0.drop 1))) st.sequence
                    (toInt32 st.hist.size) ∧
             bang_index (toInt32 (strtol (arg0.drop 1))) st.sequence
                    (toInt32 st.hist.size) < toInt32 st.hist.size)
    (hline : items.get? (bang_index (toInt32 (strtol (arg0.drop 1))) st.sequence
                    (toInt32 st.hist.size)).toNat = some line)
    (htok : set_arguments line = .ok (i_argc, i_argv))
    (hnb : ∀ a, i_argv.head? = some a → ∃ s, a = Arg.live s ∧ s.head? ≠ some '!')
    (hverb : i_argv.head? = some (Arg.live verbose_command) →
      ∃ x, i_argv.get? 1 = some (Arg.live x)) :
    ∃ (status : Int) (st1 : Session) (x : Str),
      bang (execute_command w (fuel + 1)) argc (Arg.live arg0 :: more) st
        = .ok (status, st1) ∧
      st1.sequence = st.sequence ∧
      st1.hist.wf
        ((if items.length = st.hist.capacity
            then (items.set (bang_index (toInt32 (strtol (arg0.drop 1))) st.sequence
                    (toInt32 st.hist.size)).toNat x).tail
            else items.set (bang_index (toInt32 (strtol (arg0.drop 1))) st.sequence
                    (toInt32 st.hist.size)).toNat x) ++ [arg0]) := by
  have hlt : (bang_index (toInt32 (strtol (arg0.drop 1))) st.sequence
      (toInt32 st.hist.size)).toNat < items.length := by
    rw [List.get?_eq_getElem?] at hline
    exact (List.getElem?_eq_some_iff.1 hline).1
  have hcut := wf_cut st.hist items _ line hwf hlt
  have hargv : i_argc ≠ 0 → i_argv ≠ [] := by
    intro h0 hnil
    rcases hl : set_arguments_loop (line.length + 1) (strtok [' '] line).1
      (strtok [' '] line).2 [] with e | res
    · simp only [set_arguments, hl] at htok; cases htok
    · simp only [set_arguments, hl, Except.ok.injEq, Prod.mk.injEq] at htok
      rw [← htok.1, htok.2, hnil] at h0
      exact h0 rfl
  obtain ⟨status, st1, hex⟩ := execute_plain_total w fuel i_argc i_argv
    (st.with_hist (cut_entry st.hist _ line)) _ hcut hnb hargv hverb
  obtain ⟨hh, hseq, _⟩ := execute_plain_frame w fuel i_argc i_argv _ st1 status
    (fun a ha => by
      obtain ⟨s, hs, hb⟩ := hnb _ ha
      simp only [Arg.live.injEq] at hs
      rw [hs]; exact hb) hex
  have hcap : 1 ≤ st1.hist.capacity := by
    rw [hh]
    have := hwf.2.1
    simp only [Session.with_hist, cut_entry]
    omega
  have hwf1 : st1.hist.wf (items.set (bang_index (toInt32 (strtol (arg0.drop 1))) st.sequence
      (toInt32 st.hist.size)).toNat (strtok_buf [' '] line)) := by rw [hh]; exact hcut
  obtain ⟨hist, he, _, hw⟩ := enqueue_wf st1.hist _ arg0 hwf1 hcap
  refine ⟨status, st1.with_hist hist, strtok_buf [' '] line, ?_, hseq, ?_⟩
  · rw [bang_in_range _ argc arg0 more st items line hargc hwf hcond hline]
    simp only [htok, hex, he]
  · have hc : st1.hist.capacity = st.hist.capacity := by rw [hh]; rfl
    simpa [pushed, hc, Session.with_hist] using hw

/-- Witness of C4, amended: with the ledger `ls`, `pwd`, `echo hi` and the
counter at 5, the token `!2` replays `pwd`. -/
theorem replay_appends_token_witness :
    ∃ (status : Int) (st1 : Session) (x : Str),
      bang (execute_command calm 1) 1 (Arg.live "!2".toList :: [])
          { after_three with sequence := 5 } = .ok (status, st1) ∧
      st1.sequence = 5 ∧
      st1.hist.wf
        ((if ["ls".toList, "pwd".toList, "echo hi".toList].length = 10
            then (["ls".toList, "pwd".toList, "echo hi".toList].set
                    (bang_index (toInt32 (strtol ("!2".toList.drop 1))) 5 (toInt32 3)).toNat
                    x).tail
            else ["ls".toList, "pwd".toList, "echo hi".toList].set
                    (bang_index (toInt32 (strtol ("!2".toList.drop 1))) 5 (toInt32 3)).toNat
                    x) ++ ["!2".toList]) :=
  replay_appends_token calm 0 1 "!2".toList [] { after_three with sequence := 5 }
    ["ls".toList, "pwd".toList, "echo hi".toList] "pwd".toList 1 [Arg.live "pwd".toList]
    (by decide) ⟨rfl, by decide, rfl⟩ (by decide) (by decide) (by decide)
    (fun a ha => ⟨"pwd".toList, by
      simp only [List.head?_cons, Option.some.injEq] at ha
      exact ha.symm, by decide⟩)
    (fun h => absurd h (by decide))

/-! ## Lemmas on the entries of the ledger -/

/-- C11: classification. The function `is_internal` holds of a command token
exactly when the token is `help`, `history`, `quit` or `verbose`, or begins
with `!`; and for every argument vector with `argc ≥ 1`, `execute_command`
hands it to `process_internal` exactly in that case and to `process_external`
otherwise. -/
theorem is_internal_classifies (w : World) (fuel argc : Nat) (c : Str) (more : List Arg)
    (st : Session) (hargc : 1 ≤ argc) :
    (is_internal c = true ↔
      (c = help_command ∨ c = history_command ∨ c = quit_command ∨ c = verbose_command ∨
        c.head? = some '!')) ∧
    execute_command w (fuel + 1) argc (Arg.live c :: more) st
      = (if c = help_command ∨ c = history_command ∨ c = quit_command ∨
              c = verbose_command ∨ c.head? = some '!'
         then process_internal (execute_command w fuel) argc (Arg.live c :: more) st
         else process_external w argc (Arg.live c :: more) st) := by
  have hiff : is_internal c = true ↔
      (c = help_command ∨ c = history_command ∨ c = quit_command ∨ c = verbose_command ∨
        c.head? = some '!') := by
    simp only [is_internal, Bool.or_eq_true, decide_eq_true_eq]
    tauto
  refine ⟨hiff, ?_⟩
  have h0 : argc ≠ 0 := by omega
  by_cases hi : is_internal c = true
  · rw [if_pos (hiff.1 hi)]
    simp only [execute_command, h0, if_false, List.head?_cons, hi, if_true]
  · rw [if_neg (fun h => hi (hiff.2 h))]
    simp only [execute_command, h0, if_false, List.head?_cons, hi]
    rfl

/-- Witness of C11: the command `ls` with one argument. -/
theorem is_internal_classifies_witness :
    (is_internal "ls".toList = true ↔
      ("ls".toList = help_command ∨ "ls".toList = history_command ∨
        "ls".toList = quit_command ∨ "ls".toList = verbose_command ∨
        "ls".toList.head? = some '!')) ∧
    execute_command calm (0 + 1) 2 (Arg.live "ls".toList :: [Arg.live "-la".toList]) (startup 10 0)
      = (if "ls".toList = help_command ∨ "ls".toList = history_command ∨
              "ls".toList = quit_command ∨ "ls".toList = verbose_command ∨
              "ls".toList.head? = some '!'
         then process_internal (execute_command calm 0) 2 (Arg.live "ls".toList :: [Arg.live "-la".toList])
                (startup 10 0)
         else process_external calm 2 (Arg.live "ls".toList :: [Arg.live "-la".toList]) (startup 10 0)) :=
  is_internal_classifies calm 0 2 "ls".toList [Arg.live "-la".toList] (startup 10 0) (by decide)

/-! ## C16 -/

/-- C16: `quit` terminates. For every argument vector with `argc ≥ 1` whose
first element is `quit`, whatever follows, `execute_command` returns Terminate
(0) and leaves the ledger, the sequence counter, the verbose flag and the
output as they were. -/
theorem quit_terminates (w : World) (fuel argc : Nat) (more : List Arg) (st : Session)
    (hargc : 1 ≤ argc) :
    execute_command w (fuel + 1) argc (Arg.live quit_command :: more) st = .ok (0, st) := by
  have h0 : argc ≠ 0 := by omega
  have hi : is_internal quit_command = true := by decide
  have h1 : quit_command ≠ help_command := by decide
  have h2 : quit_command ≠ history_command := by decide
  simp [execute_command, process_internal, quit, usage_guard, h0, hi, h1, h2]

/-- Witness of C16: `quit now`. -/
theorem quit_terminates_witness :
    execute_command calm (0 + 1) 2 (Arg.live quit_command :: [Arg.live "now".toList]) after_three
      = .ok (0, after_three) :=
  quit_terminates calm 0 2 [Arg.live "now".toList] after_three (by decide)

/-! ## C17 -/

/-- C17: a failed external command does not end the session. In the parent
process, for every argument vector with `argc ≥ 1` and every outcome of the
child, `process_external` returns; it returns Terminate (0) exactly when
`wait` itself fails, and Continue (1) whenever `wait` succeeds, whether the
child exited with code 0, with another code, or without exiting. -/
theorem external_failure_continues (w : World) (argc : Nat) (command : Str)
    (more : List Arg) (st : Session) (hargc : 1 ≤ argc) :
    ∃ (status : Int) (st1 : Session),
      process_external w argc (Arg.live command :: more) st = .ok (status, st1) ∧
      (status = 0 ↔ w (path ++ command) (Arg.live command :: more) = WaitResult.failed) ∧
      (status = 1 ↔ w (path ++ command) (Arg.live command :: more) ≠ WaitResult.failed) := by
  have h0 : argc ≠ 0 := by omega
  unfold process_external
  rw [if_neg h0]
  simp only [List.head?_cons]
  rcases hw : w (path ++ command) (Arg.live command :: more) with _ | code | _
  · exact ⟨0, _, rfl, by simp, by simp⟩
  · cases code with
    | zero => exact ⟨1, _, rfl, by simp, by simp⟩
    | succ n => exact ⟨1, _, rfl, by simp, by simp⟩
  · exact ⟨1, _, rfl, by simp, by simp⟩

/-- Witness of C17: `ls` in a host where every child exits with code 3. -/
theorem external_failure_continues_witness :
    ∃ (status : Int) (st1 : Session),
      process_external (fun _ _ => WaitResult.exited 3) 1 (Arg.live "ls".toList :: []) (startup 10 0)
        = .ok (status, st1) ∧
      (status = 0 ↔
        (fun _ _ => WaitResult.exited 3 : World) (path ++ "ls".toList) (Arg.live "ls".toList :: [])
          = WaitResult.failed) ∧
      (status = 1 ↔
        (fun _ _ => WaitResult.exited 3 : World) (path ++ "ls".toList) (Arg.live "ls".toList :: [])
          ≠ WaitResult.failed) :=
  external_failure_continues (fun _ _ => WaitResult.exited 3) 1 "ls".toList []
    (startup 10 0) (by decide)

/-! ## C20 -/

/-- C20: the 32-bit index arithmetic of `bang` agrees with integer arithmetic.
For every parsed suffix `N` with `-2^31 ≤ N < 2^31`, every `sequence` with
`1 ≤ sequence < 2^31` and every `size` with `0 ≤ size < 2^31`, the value of
`hist_idx` takes the replay branch `0 ≤ hist_idx < size` exactly when the
integer `N - sequence + size + 1` lies in `[0, size)`, and then `hist_idx` is
that integer. -/
theorem bang_index_agrees (N : Int) (sequence size : Nat)
    (hN : -(2 : Int) ^ 31 ≤ N ∧ N < 2 ^ 31) (hseq : 1 ≤ sequence ∧ sequence < 2 ^ 31)
    (hsize : size < 2 ^ 31) :
    toInt32 (size : Int) = size ∧
    ((0 ≤ bang_index N sequence (toInt32 size) ∧
        bang_index N sequence (toInt32 size) < toInt32 size) ↔
      (0 ≤ N - sequence + size + 1 ∧ N - sequence + size + 1 < size)) ∧
    ((0 ≤ bang_index N sequence (toInt32 size) ∧
        bang_index N sequence (toInt32 size) < toInt32 size) →
      bang_index N sequence (toInt32 size) = N - sequence + size + 1) := by
  have hs : toInt32 (size : Int) = size := by
    simp only [toInt32]
    norm_num at hsize ⊢
    omega
  rw [hs]
  simp only [bang_index, toInt32]
  norm_num at hN hseq hsize ⊢
  refine ⟨?_, ?_⟩
  · constructor
    · intro h; split_ifs at h <;> omega
    · intro h; split_ifs <;> omega
  · intro h; split_ifs at h ⊢ <;> omega

/-- Witness of C20: `!2` with the counter at 5 and three entries. -/
theorem bang_index_agrees_witness :
    toInt32 ((3 : Nat) : Int) = (3 : Nat) ∧
    ((0 ≤ bang_index 2 5 (toInt32 (3 : Nat)) ∧
        bang_index 2 5 (toInt32 (3 : Nat)) < toInt32 (3 : Nat)) ↔
      (0 ≤ (2 : Int) - (5 : Nat) + (3 : Nat) + 1 ∧
        (2 : Int) - (5 : Nat) + (3 : Nat) + 1 < (3 : Nat))) ∧
    ((0 ≤ bang_index 2 5 (toInt32 (3 : Nat)) ∧
        bang_index 2 5 (toInt32 (3 : Nat)) < toInt32 (3 : Nat)) →
      bang_index 2 5 (toInt32 (3 : Nat)) = (2 : Int) - (5 : Nat) + (3 : Nat) + 1) :=
  bang_index_agrees 2 5 3 (by decide) (by decide) (by decide)

/-! ## C13 -/

/-- C13: the verbose flag is a function of the argument only. From every
session, dispatching `verbose on` returns Continue (1) and leaves the flag
set, dispatching `verbose off` returns Continue (1) and leaves it clear, so
`verbose off` followed by `verbose on` ends with the flag set; dispatching
`verbose x` for any `x` other than `on` and `off` leaves the flag, the ledger
and the counter as they were. -/
theorem verbose_flag_follows_argument (w : World) (fuel : Nat) (st : Session) (x : Str)
    (hon : x ≠ "on".toList) (hoff : x ≠ "off".toList) :
    execute_command w (fuel + 1) 2 [Arg.live verbose_command, Arg.live "on".toList] st
      = .ok (1, { st with vflag := 1 }) ∧
    execute_command w (fuel + 1) 2 [Arg.live verbose_command, Arg.live "off".toList] st
      = .ok (1, { st with vflag := 0 }) ∧
    (match execute_command w (fuel + 1) 2 [Arg.live verbose_command, Arg.live "off".toList] st with
      | .ok r => execute_command w (fuel + 1) 2 [Arg.live verbose_command, Arg.live "on".toList] r.2
      | .error e => .error e)
      = .ok (1, { st with vflag := 1 }) ∧
    execute_command w (fuel + 1) 2 [Arg.live verbose_command, Arg.live x] st
      = .ok (1, { st with out := st.out ++ [Out.usage_verbose] }) := by
  have hi : is_internal verbose_command = true := by decide
  have h1 : verbose_command ≠ help_command := by decide
  have h2 : verbose_command ≠ history_command := by decide
  have h3 : verbose_command ≠ quit_command := by decide
  have hd : ∀ (a : Str) (s : Session),
      execute_command w (fuel + 1) 2 [Arg.live verbose_command, Arg.live a] s
        = verbose 2 [Arg.live verbose_command, Arg.live a] s := by
    intro a s
    simp [execute_command, process_internal, hi, h1, h2, h3]
  have eon : ∀ s : Session, verbose 2 [Arg.live verbose_command, Arg.live "on".toList] s
      = .ok (1, { s with vflag := 1 }) := by
    intro s; simp [verbose, usage_guard]
  have eoff : ∀ s : Session, verbose 2 [Arg.live verbose_command, Arg.live "off".toList] s
      = .ok (1, { s with vflag := 0 }) := by
    intro s; simp [verbose, usage_guard]
  have hon2 : x ≠ ['o', 'n'] := hon
  have hoff2 : x ≠ ['o', 'f', 'f'] := hoff
  refine ⟨by rw [hd, eon], by rw [hd, eoff], ?_, ?_⟩
  · rw [hd, eoff]
    simp only
    rw [hd, eon]
  · rw [hd]
    simp [verbose, usage_guard, hon2, hoff2]

/-- Witness of C13: `verbose maybe` as the third dispatch. -/
theorem verbose_flag_follows_argument_witness :
    execute_command calm (0 + 1) 2 [Arg.live verbose_command, Arg.live "on".toList] after_three
      = .ok (1, { after_three with vflag := 1 }) ∧
    execute_command calm (0 + 1) 2 [Arg.live verbose_command, Arg.live "off".toList] after_three
      = .ok (1, { after_three with vflag := 0 }) ∧
    (match execute_command calm (0 + 1) 2 [Arg.live verbose_command, Arg.live "off".toList] after_three with
      | .ok r => execute_command calm (0 + 1) 2 [Arg.live verbose_command, Arg.live "on".toList] r.2
      | .error e => .error e)
      = .ok (1, { after_three with vflag := 1 }) ∧
    execute_command calm (0 + 1) 2 [Arg.live verbose_command, Arg.live "maybe".toList] after_three
      = .ok (1, { after_three with out := after_three.out ++ [Out.usage_verbose] }) :=
  verbose_flag_follows_argument calm 0 after_three "maybe".toList (by decide) (by decide)

/-! ## C18 -/

theorem replay_of_itself (w : World) :
    ∀ fuel : Nat, execute_command w fuel 1 [Arg.live "!1".toList] in_replay = .error .fuel := by
  intro fuel
  induction fuel with
  | zero => rfl
  | succ fuel ih =>
    have hb := bang_in_range (execute_command w fuel) 1 "!1".toList [] in_replay
      ["!1".toList] "!1".toList (by decide) ⟨rfl, by decide, rfl⟩ (by decide) (by decide)
    have hcut : in_replay.with_hist
        (cut_entry in_replay.hist
          (bang_index (toInt32 (strtol ("!1".toList.drop 1))) in_replay.sequence
            (toInt32 in_replay.hist.size)).toNat "!1".toList)
        = in_replay := by
      decide
    have hset : set_arguments "!1".toList = .ok (1, [Arg.live "!1".toList]) := by decide
    have he : execute_command w (fuel + 1) 1 [Arg.live "!1".toList] in_replay
        = bang (execute_command w fuel) 1 [Arg.live "!1".toList] in_replay :=
      execute_command_bang w fuel 1 "1".toList [] _ (by decide)
    rw [he, hb, hset]
    simp only
    rw [hcut, ih]

/-- The turn of the read loop on a line `!1`, from a session in normal mode. -/
theorem run_step_bang_one (w : World) (fuel : Nat) (st : Session) (hv : st.vflag = 0) :
    run_step w fuel st (some "!1\n".toList)
      = match execute_command w fuel 1 [Arg.live "!1".toList]
            { hist := st.hist, vflag := st.vflag, sequence := (st.sequence + 1) % 2 ^ 32,
              out := st.out ++ [Out.prompt st.sequence] } with
        | .error e => .error e
        | .ok (status, st3) => .ok (status != 0, st3) := by
  have hset : set_arguments "!1".toList = .ok (1, [Arg.live "!1".toList]) := by decide
  have htok : strtok ['\n'] "!1\n".toList = (some "!1".toList, []) := by decide
  have hl : "!1\n".toList.length ≠ 1 := by decide
  have hh : ("!1".toList.head? ≠ some '!') = False := by simp
  unfold run_step
  simp only [hl, if_false, htok, hset, hh, hv, ne_eq, not_true_eq_false]

/-- C18: bang replay has no depth guard and can recurse without bound. In a
session with a ledger of capacity 10, the line `!1` at prompt 1 is out of range
and is recorded; the line `!1` at prompt 2 then resolves to that entry, whose
replay resolves to the same position under the same counter and size, so for
every depth budget the turn ends by using the budget up, and so does the run
of the two lines. -/
theorem replay_recurses_without_bound (w : World) (fuel : Nat) :
    run_step w 1 (startup 10 0) (some "!1\n".toList) = .ok (true, after_bang_one) ∧
    run_step w fuel after_bang_one (some "!1\n".toList) = .error .fuel ∧
    run w fuel ["!1\n".toList, "!1\n".toList] (startup 10 0) = .error .fuel := by
  have h1 : ∀ f, run_step w (f + 1) (startup 10 0) (some "!1\n".toList)
      = .ok (true, after_bang_one) := by
    intro f
    have he : execute_command w (f + 1) 1 [Arg.live "!1".toList]
        { hist := (startup 10 0).hist, vflag := (startup 10 0).vflag,
          sequence := ((startup 10 0).sequence + 1) % 2 ^ 32,
          out := (startup 10 0).out ++ [Out.prompt (startup 10 0).sequence] }
        = bang (execute_command w f) 1 [Arg.live "!1".toList]
            { hist := (startup 10 0).hist, vflag := (startup 10 0).vflag,
              sequence := ((startup 10 0).sequence + 1) % 2 ^ 32,
              out := (startup 10 0).out ++ [Out.prompt (startup 10 0).sequence] } :=
      execute_command_bang w f 1 "1".toList [] _ (by decide)
    rw [run_step_bang_one w (f + 1) (startup 10 0) rfl, he]
    rfl
  have h2 : ∀ f, run_step w f after_bang_one (some "!1\n".toList) = .error .fuel := by
    intro f
    rw [run_step_bang_one w f after_bang_one rfl]
    have hst : ({ hist := after_bang_one.hist, vflag := after_bang_one.vflag,
                  sequence := (after_bang_one.sequence + 1) % 2 ^ 32,
                  out := after_bang_one.out ++ [Out.prompt after_bang_one.sequence] }
                  : Session) = in_replay := by
      decide
    rw [hst, replay_of_itself w f]
  refine ⟨h1 0, h2 fuel, ?_⟩
  cases fuel with
  | zero => rfl
  | succ f => simp only [run, h1 f, h2 (f + 1)]

/-! ## C15 -/

/-- C15 fails on the code: for the option `-h -5` the loop of `main` does not
print the usage line. The value -5 becomes the `size_t` 2^64 - 5, the test
`history_capacity <= 0` is false, and `main` goes on to the ledger and the
read loop with that capacity. For `-h 0` it does print the usage line, and for
`-h 3` the capacity is 3. -/
theorem negative_capacity_is_accepted :
    main_options [Opt.h "-5".toList] 0 DEFAULT_HISTORY = some (0, 2 ^ 64 - 5) ∧
    (∀ (w : World) (fuel : Nat) (inputs : List Str),
      main w fuel [Opt.h "-5".toList] inputs ≠ .ok none) ∧
    main_options [Opt.h "0".toList] 0 DEFAULT_HISTORY = none ∧
    main_options [Opt.h "3".toList] 0 DEFAULT_HISTORY = some (0, 3) := by
  have h : main_options [Opt.h "-5".toList] 0 DEFAULT_HISTORY = some (0, 2 ^ 64 - 5) := by
    decide
  refine ⟨h, ?_, by decide, by decide⟩
  intro w fuel inputs hm
  unfold main at hm
  rw [h] at hm
  simp only at hm
  rcases hr : run w fuel inputs (startup (2 ^ 64 - 5) 0) with e | st
  · rw [hr] at hm; cases hm
  · rw [hr] at hm; cases hm

/-! ## C12 -/

/-- C12 as stated fails: the array that `run` and `bang` hand to
`set_arguments` has `MAX_ARGS * ARG_BUFFER` bytes, 320 elements, and the loop
stores without a test of the count. On the line of 321 words `a`, one space
between two of them, the 321st store is outside the array and there is no
result. -/
theorem plain_words_overflow_counterexample :
    (∀ p ∈ List.replicate 320 ("a".toList, 0), plain_word p.1 = true) ∧
    plain_word "a".toList = true ∧
    (List.replicate 320 ("a".toList, 0)).length + 1 = 321 ∧
    set_arguments (List.replicate 0 ' ' ++
        (spaced (List.replicate 320 ("a".toList, 0)) ++ ("a".toList ++ List.replicate 0 ' ')))
      = .error .undefined := by
  have hws : ∀ p ∈ List.replicate 320 ("a".toList, 0), plain_word p.1 = true := by
    intro p hp
    rw [List.eq_of_mem_replicate hp]
    decide
  refine ⟨hws, by decide, by rw [List.length_replicate], ?_⟩
  rw [set_arguments_spaced 0 (List.replicate 320 ("a".toList, 0)) "a".toList 0 hws
    (by decide), List.length_replicate, slots_eq, if_neg (by decide)]

/-- C12, amended: plain words are split on spaces while the array of the
caller has room. For every line made of `k ≥ 1` words that are not empty,
contain no white space and do not begin with a quote character, with any number
of spaces before the first, one or more spaces between two of them and any
number of spaces after the last: when `k` is at most `ARGV_SLOTS` = 320,
`set_arguments` returns the count `k` and exactly those words in order; when
`k` is more, a store falls outside the array and there is no result. -/
theorem plain_words_are_split (lead : Nat) (ws : List (Str × Nat)) (w : Str) (trail : Nat)
    (hws : ∀ p ∈ ws, plain_word p.1 = true) (hw : plain_word w = true) :
    set_arguments (List.replicate lead ' ' ++ (spaced ws ++ (w ++ List.replicate trail ' ')))
      = if ws.length + 1 ≤ ARGV_SLOTS
        then .ok (ws.length + 1, (ws.map Prod.fst ++ [w]).map Arg.live)
        else .error .undefined :=
  set_arguments_spaced lead ws w trail hws hw

/-- Witness of C12, amended: the line `ls -la`. -/
theorem plain_words_are_split_witness :
    set_arguments (List.replicate 0 ' ' ++
        (spaced [("ls".toList, 0)] ++ ("-la".toList ++ List.replicate 0 ' ')))
      = (if [("ls".toList, 0)].length + 1 ≤ ARGV_SLOTS
         then .ok ([("ls".toList, 0)].length + 1,
           ([("ls".toList, 0)].map Prod.fst ++ ["-la".toList]).map Arg.live)
         else .error .undefined) ∧
    List.replicate 0 ' ' ++ (spaced [("ls".toList, 0)] ++ ("-la".toList ++ List.replicate 0 ' '))
      = "ls -la".toList ∧
    set_arguments "ls -la".toList = .ok (2, [Arg.live "ls".toList, Arg.live "-la".toList]) :=
  ⟨plain_words_are_split 0 [("ls".toList, 0)] "-la".toList 0 (by decide) (by decide),
   by decide, by decide⟩
/-! ## Lemmas on the number of arguments -/

/-- C19 as stated fails: the line `"a b "c"` has the tokens `"a`, `b` and `"c"`
between its spaces; the last one begins with a quote, has no space inside and
nothing after it, and still a result is produced, because the call of `strtok`
for the first quoted token has consumed its opening quote. -/
theorem quoted_last_token_counterexample :
    runs is_space "\"a b \"c\"".toList = ["\"a".toList, "b".toList, "\"c\"".toList] ∧
    set_arguments "\"a b \"c\"".toList = .ok (2, [Arg.dangling, Arg.live "c\"".toList]) := by
  decide

theorem strtok_quotes_none (rest : Str) (h : ∀ c ∈ rest, is_quote c = true) :
    strtok ['"', '\''] rest = (none, []) := by
  apply strtok_eq_none
  rw [List.dropWhile_eq_nil_iff]
  intro c hc
  have := h c hc
  simp only [is_quote, Bool.or_eq_true, decide_eq_true_eq] at this
  rcases this with rfl | rfl <;> decide

theorem loop_quoted_null (fuel : Nat) (q : Char) (a rest : Str) (argv : List Arg)
    (hq : is_quote q = true) (hrest : ∀ c ∈ rest, is_quote c = true) :
    set_arguments_loop (fuel + 1) (some (q :: a)) rest argv = .error .undefined := by
  have he := is_empty_false_of_mem (q :: a) q (by simp) (isspace_false_of_quote q hq)
  have hs := strtok_quotes_none rest hrest
  simp only [is_quote, Bool.or_eq_true, decide_eq_true_eq] at hq
  have hq2 : q = '\'' ∨ q = '"' := hq
  simp [set_arguments_loop, he, hs, hq2]

/-- C19, amended: `set_arguments` is defined only when every quoted token that
its loop takes up has a continuation. When the loop takes up a token that begins
with a quote character and the text after it has no character other than
quotes, the continuation is `NULL` and no result is produced; so the loop
produces a result from such a token only if the text after it has a character
that is not a quote. In particular no result is produced for a line of plain
words, each followed by spaces, with a last token that begins with a quote
character and has no space inside, as `echo "hi"`. -/
theorem quoted_token_needs_continuation (fuel : Nat) (q : Char) (a rest : Str)
    (argv : List Arg) (lead : Nat) (ws : List (Str × Nat)) (t : Str)
    (hq : is_quote q = true) (hws : ∀ p ∈ ws, plain_word p.1 = true)
    (ht : ∀ c ∈ t, c ≠ ' ') :
    ((∀ c ∈ rest, is_quote c = true) →
      set_arguments_loop (fuel + 1) (some (q :: a)) rest argv = .error .undefined) ∧
    (∀ res, set_arguments_loop (fuel + 1) (some (q :: a)) rest argv = .ok res →
      ∃ c ∈ rest, is_quote c = false) ∧
    set_arguments (List.replicate lead ' ' ++ (spaced ws ++ q :: t)) = .error .undefined := by
  refine ⟨loop_quoted_null fuel q a rest argv hq, ?_, ?_⟩
  · intro res hres
    by_contra hno
    have hall : ∀ c ∈ rest, is_quote c = true := by
      intro c hc
      by_contra hcq
      exact hno ⟨c, hc, by simpa using hcq⟩
    rw [loop_quoted_null fuel q a rest argv hq hall] at hres
    cases hres
  · have hlen : ∃ f, (List.replicate lead ' ' ++ (spaced ws ++ q :: t)).length + 1
        = (f + 1) + ws.length := by
      have h1 := spaced_length ws
      refine ⟨(List.replicate lead ' ' ++ (spaced ws ++ q :: t)).length + 1 - 1 - ws.length, ?_⟩
      simp only [List.length_append, List.length_replicate, List.length_cons]
      omega
    obtain ⟨f, hf⟩ := hlen
    have hlast : strtok [' '] (q :: t) = (some (q :: t), []) := by
      apply strtok_last [' '] (q :: t) (by simp)
      intro c hc hmem
      simp only [List.mem_singleton] at hmem
      subst hmem
      rcases List.mem_cons.1 hc with h | h
      · rw [← h] at hq; exact absurd hq (by decide)
      · exact ht _ h rfl
    unfold set_arguments
    simp only [hf, strtok_lead]
    rw [loop_spaced ws (f + 1) [] _ hws (by simp), hlast]
    simp only
    rw [loop_quoted_null f q t [] _ hq (by simp)]
    simp

/-- Witness of C19, amended: the line `echo "hi"`. -/
theorem quoted_token_needs_continuation_witness :
    (((∀ c ∈ ([] : Str), is_quote c = true) →
      set_arguments_loop (9 + 1) (some ('"' :: "hi\"".toList)) [] [Arg.live "echo".toList]
        = .error .undefined) ∧
    (∀ res, set_arguments_loop (9 + 1) (some ('"' :: "hi\"".toList)) [] [Arg.live "echo".toList]
        = .ok res → ∃ c ∈ ([] : Str), is_quote c = false) ∧
    set_arguments (List.replicate 0 ' ' ++ (spaced [("echo".toList, 0)] ++ '"' :: "hi\"".toList))
      = .error .undefined) ∧
    List.replicate 0 ' ' ++ (spaced [("echo".toList, 0)] ++ '"' :: "hi\"".toList)
      = "echo \"hi\"".toList :=
  ⟨quoted_token_needs_continuation 9 '"' "hi\"".toList [] [Arg.live "echo".toList] 0
      [("echo".toList, 0)] "hi\"".toList (by decide) (by decide) (by decide),
   by decide⟩
end Mysh
